import Mathlib

/-!
# Shoebill debugger console (`src/debugger/debugger.c`)

A shallow embedding of the debugger's verb dispatcher, breakpoint table,
stepping loop and backtrace walker, with theorems about them.

Conventions of the embedding.

* A C string is the list of its characters before the terminating NUL.
* Every `printf`, `usleep` and call through a function pointer is recorded,
  in program order, as an `Ev` in an output log; a `printf` event keeps the
  format string of the source and the values of its arguments.
* Unsigned machine integers are naturals, reduced modulo `2^w` wherever the
  source can overflow.
* A loop that the source does not bound takes a fuel argument, and running
  out of fuel is a result of its own (`none`, `Outcome.out_of_fuel`).
* What lives outside the two source files (the emulator core, the
  disassembler, the symbol tables) is a parameter, `Emulator`.
-/

namespace Shoebill

/-! ## C library: character classes and case-insensitive comparison -/

/-- The `isspace` of the C locale: space, `\t`, `\n`, `\v`, `\f`, `\r`. -/
def isspace (c : Char) : Bool :=
  c.toNat == 32 || (9 ≤ c.toNat && c.toNat ≤ 13)

/-- The `tolower` of the C locale: `A`..`Z` go to `a`..`z`, all else is kept. -/
def tolower (c : Char) : Char :=
  if 65 ≤ c.toNat ∧ c.toNat ≤ 90 then Char.ofNat (c.toNat + 32) else c

/-- The libc `strcasecmp`: the difference of the first pair of characters that
differ after `tolower`, the end of a string counting as NUL. -/
def strcasecmp : List Char → List Char → Int
  | [], [] => 0
  | [], d :: _ => - ((tolower d).toNat : Int)
  | c :: _, [] => ((tolower c).toNat : Int)
  | c :: cs, d :: ds =>
    if tolower c = tolower d then strcasecmp cs ds
    else ((tolower c).toNat : Int) - ((tolower d).toNat : Int)

/-- The libc `strncasecmp`: as `strcasecmp`, over at most `n` characters. -/
def strncasecmp (s1 s2 : List Char) (n : Nat) : Int :=
  strcasecmp (s1.take n) (s2.take n)

/-- The libc `strlen`. -/
def strlen (s : List Char) : Nat := s.length

/-! ## Output log -/

/-- A `printf` argument. -/
inductive Arg where
  | num (v : Nat)
  | str (s : List Char)
  deriving DecidableEq

/-- The verb handlers of `verb_handler_table`, named as in the source. -/
inductive Handler where
  | verb_quit_handler
  | verb_continue_handler
  | verb_help_handler
  | verb_registers_handler
  | verb_stepi_handler
  | verb_backtrace_handler
  | verb_break_handler
  | verb_delete_handler
  | verb_lookup_handler
  | verb_trace_toggle_handler
  | verb_examine_handler
  | verb_reset_handler
  | verb_slow_handler
  deriving DecidableEq

/-- One observable action of the debugger. -/
inductive Ev where
  | printf (fmt : String) (args : List Arg)
  | call (func : Handler) (line : List Char)
  | usleep (usecs : Nat)
  | cpu_step
  | process_pending_interrupt
  | printregs (pc : Nat)
  deriving DecidableEq

/-! ## Verb dispatch (`execute_verb`) -/

/-- An entry of `verb_handler_table`. -/
structure verb_handler_table_t where
  name : List Char
  func : Handler
  deriving DecidableEq

/-- The table of the source, lines 423-439. -/
def verb_handler_table : List verb_handler_table_t :=
  [ ⟨"quit".data, .verb_quit_handler⟩,
    ⟨"continue".data, .verb_continue_handler⟩,
    ⟨"help".data, .verb_help_handler⟩,
    ⟨"registers".data, .verb_registers_handler⟩,
    ⟨"stepi".data, .verb_stepi_handler⟩,
    ⟨"backtrace".data, .verb_backtrace_handler⟩,
    ⟨"bt".data, .verb_backtrace_handler⟩,
    ⟨"break".data, .verb_break_handler⟩,
    ⟨"delete".data, .verb_delete_handler⟩,
    ⟨"lookup".data, .verb_lookup_handler⟩,
    ⟨"trace".data, .verb_trace_toggle_handler⟩,
    ⟨"x".data, .verb_examine_handler⟩,
    ⟨"reset".data, .verb_reset_handler⟩,
    ⟨"slow".data, .verb_slow_handler⟩ ]

/-- The conversion `sscanf(line, "%127s", verb)`: leading white space is skipped,
then at most 127 characters that are not white space are stored; `none` is the
case where `sscanf` does not return 1 (nothing but white space). -/
def sscanf_verb (line : List Char) : Option (List Char) :=
  let tok := ((line.dropWhile isspace).takeWhile (fun c => !isspace c)).take 127
  if tok = [] then none else some tok

/-- The two pointer loops of lines 452-457, started at `line` itself: skip
characters that are not white space, then skip white space. -/
def skip_remainder (line : List Char) : List Char :=
  (line.dropWhile (fun c => !isspace c)).dropWhile isspace

/-- How the table loop of lines 460-474 is left. -/
inductive ScanExit where
  | perfect (i : Nat)
  | fell (matches_ match_i : Nat)
  deriving DecidableEq

/-- The table loop of lines 460-474 from index `i` on, over the entries not yet
visited. `match_i` is not initialised in the source; it is read only when
`matches == 1`, after it was written. -/
def scan_table (verb : List Char) :
    List verb_handler_table_t → Nat → Nat → Nat → ScanExit
  | [], _, matches_, match_i => .fell matches_ match_i
  | e :: es, i, matches_, match_i =>
    if strcasecmp verb e.name = 0 then .perfect i
    else if strlen e.name ≥ strlen verb ∧ strncasecmp verb e.name (strlen verb) = 0 then
      scan_table verb es (i + 1) (matches_ + 1) i
    else scan_table verb es (i + 1) matches_ match_i

/-- The call `verb_handler_table[i].func(remainder)`. -/
def call_entry (i : Nat) (remainder : List Char) : List Ev :=
  match verb_handler_table.get? i with
  | some e => [Ev.call e.func remainder]
  | none => []

/-- The function `execute_verb`, lines 441-483: the events it produces. -/
def execute_verb (line : List Char) : List Ev :=
  match sscanf_verb line with
  | none => []
  | some verb =>
    let remainder := skip_remainder line
    match scan_table verb verb_handler_table 0 0 0 with
    | .perfect i => call_entry i remainder
    | .fell matches_ match_i =>
      if matches_ = 1 then call_entry match_i remainder
      else [Ev.printf "  %s?\n" [Arg.str verb]]

/-- The partial-match test of line 470, as a Boolean. -/
def abbrev_test (verb : List Char) (e : verb_handler_table_t) : Bool :=
  decide (strlen e.name ≥ strlen verb ∧ strncasecmp verb e.name (strlen verb) = 0)

/-! ## Case-insensitive matching, as the specification words it -/

/-- Two names are equal up to letter case. -/
def ci_eq (v name : List Char) : Prop := v.map tolower = name.map tolower

instance (v name : List Char) : Decidable (ci_eq v name) := by
  unfold ci_eq; infer_instance

/-- The name is at least as long as `v` and starts with `v` up to letter case. -/
def ci_starts (v name : List Char) : Prop :=
  name.length ≥ v.length ∧ (name.take v.length).map tolower = v.map tolower

instance (v name : List Char) : Decidable (ci_starts v name) := by
  unfold ci_starts; infer_instance

/-- The registered entries that `v` abbreviates. -/
def candidates (v : List Char) : List verb_handler_table_t :=
  verb_handler_table.filter (fun e => decide (ci_starts v e.name))

/-! ## C library: `strtoul` and `strtoull`

The debugger is built against the BSD C library (it includes `histedit.h`),
where `unsigned long` and `unsigned long long` are both 64 bits wide and a
conversion that finds no digit sets `errno` to `EINVAL`. -/

/-- The errno value EINVAL. -/
def EINVAL : Nat := 22

/-- The errno value ERANGE. -/
def ERANGE : Nat := 34

/-- The constant ULONG_MAX (also ULLONG_MAX). -/
def ULONG_MAX : Nat := 2 ^ 64 - 1

/-- The value of a character as a digit, as `strtoul` reads it. -/
def digit_value (c : Char) : Option Nat :=
  if 48 ≤ c.toNat ∧ c.toNat ≤ 57 then some (c.toNat - 48)
  else if 65 ≤ c.toNat ∧ c.toNat ≤ 90 then some (c.toNat - 55)
  else if 97 ≤ c.toNat ∧ c.toNat ≤ 122 then some (c.toNat - 87)
  else none

/-- The digit loop of `strtoul`: `any` is 0 before the first digit, 1 after a
digit was consumed, 2 once the value has left the range of `unsigned long`. -/
def strtoul_digits (base : Nat) : List Char → Nat → Nat → Nat × Nat
  | [], acc, any => (acc, any)
  | c :: s, acc, any =>
    match digit_value c with
    | none => (acc, any)
    | some d =>
      if d ≥ base then (acc, any)
      else if any = 2 ∨ acc > ULONG_MAX / base ∨
          (acc = ULONG_MAX / base ∧ d > ULONG_MAX % base) then
        strtoul_digits base s acc 2
      else strtoul_digits base s (acc * base + d) 1

/-- The test `strtoul` makes for base 16: `0x` or `0X` followed by a hex digit. -/
def hex_start : List Char → Bool
  | z :: x :: h :: _ =>
    z == '0' && (x == 'x' || x == 'X') && (digit_value h).any (fun d => d < 16)
  | _ => false

/-- The call `strtoul(nptr, NULL, 0)`: the value returned and the value of `errno`
after the call, `errno` having been 0 before it. White space is skipped, a
sign is accepted, `0x` followed by a hex digit selects base 16, a leading `0`
base 8, anything else base 10. -/
def strtoul (nptr : List Char) : Nat × Nat :=
  let s1 := nptr.dropWhile isspace
  let neg : Bool := s1.head? == some '-'
  let s2 := if s1.head? == some '-' || s1.head? == some '+' then s1.tail else s1
  let base := if hex_start s2 then 16 else if s2.head? == some '0' then 8 else 10
  let s3 := if hex_start s2 then s2.drop 2 else s2
  let r := strtoul_digits base s3 0 0
  if r.2 = 2 then (ULONG_MAX, ERANGE)
  else if r.2 = 0 then (0, EINVAL)
  else if neg then ((2 ^ 64 - r.1) % 2 ^ 64, 0)
  else (r.1, 0)

/-- The call `strtoull(nptr, NULL, 0)`; `unsigned long long` is 64 bits as well. -/
def strtoull (nptr : List Char) : Nat × Nat := strtoul nptr

/-! ## Session and emulator state -/

/-- A node of the breakpoint list (`dbg_breakpoint_t`); the list itself is the
chain of `next` pointers from `dbg_state.breakpoints`. -/
structure dbg_breakpoint_t where
  num : Nat
  addr : Nat
  deriving DecidableEq

/-- The fields of `struct dbg_state_t` that the console code uses. -/
structure dbg_state_t where
  running : Nat
  breakpoint_counter : Nat
  breakpoints : List dbg_breakpoint_t
  trace : Bool
  slow_factor : Nat
  deriving DecidableEq

/-- A symbol of the loaded program (`coff_symbol`). -/
structure coff_symbol where
  name : List Char
  value : Nat
  deriving DecidableEq

/-- An entry of `macii_rom_symbols` before the entry whose name is NULL. -/
structure rom_symbol where
  addr : Nat
  name : List Char
  deriving DecidableEq

/-- The fields of the emulator's global `shoe` that the console code reads or
writes; `sr_s` is the supervisor bit that the macro `sr_s()` reads, and `core`
is the rest of the emulator (memory, devices, the other registers). -/
structure shoe_t (κ : Type) where
  pc : Nat
  a : Nat → Nat
  sr_s : Bool
  abort : Nat
  suppress_exceptions : Nat
  cpu_thread_notifications : Nat
  physical_rom_size : Nat
  core : κ

/-- The emulator and tool functions that the console code calls and that are
declared in `debugger.h`, outside the two source files. `lget shoe addr size`
gives the value read and the emulator state after the read. -/
structure Emulator (κ : Type) where
  cpu_step : shoe_t κ → shoe_t κ
  process_pending_interrupt : shoe_t κ → shoe_t κ
  lget : shoe_t κ → Nat → Nat → Nat × shoe_t κ
  disassemble_inst : List Nat → Nat → List Char × Nat
  coff_find_func : shoe_t κ → Nat → Option coff_symbol
  macii_rom_symbols : List rom_symbol

/-- The state the console thread works on: the emulator, the session, and the
log of what was printed and called so far. -/
structure World (κ : Type) where
  shoe : shoe_t κ
  dbg_state : dbg_state_t
  out : List Ev

/-- How a handler with loops ends: it returns, it reads through a null pointer,
or the fuel given to the model ran out before it did either. -/
inductive Outcome (α : Type) where
  | returned (a : α)
  | null_deref
  | out_of_fuel

/-- The session at start-up: the zero-initialised global `dbg_state`. -/
def dbg_state_init : dbg_state_t :=
  { running := 0, breakpoint_counter := 0, breakpoints := [], trace := false,
    slow_factor := 0 }

/-! ## Breakpoint table -/

/-- The function `verb_break_handler`, lines 253-274. `calloc` is taken to succeed. -/
def verb_break_handler {κ : Type} (line : List Char) (w : World κ) : World κ :=
  let r := strtoul line
  let addr := r.1 % 2 ^ 32
  if r.2 ≠ 0 then
    { w with out := w.out ++ [Ev.printf "errno: %d\n" [Arg.num r.2]] }
  else
    let brk : dbg_breakpoint_t := { addr := addr, num := w.dbg_state.breakpoint_counter }
    { w with
      dbg_state := { w.dbg_state with
        breakpoint_counter := (w.dbg_state.breakpoint_counter + 1) % 2 ^ 64
        breakpoints := w.dbg_state.breakpoints ++ [brk] }
      out := w.out ++
        [Ev.printf "Set breakpoint %llu = *0x%08x\n" [Arg.num brk.num, Arg.num brk.addr]] }

/-- The list walk of lines 286-295: `some l` is the list after the first node
whose number is `num` was unlinked, `none` is the walk reaching the end. -/
def unlink_first (num : Nat) : List dbg_breakpoint_t → Option (List dbg_breakpoint_t)
  | [] => none
  | cur :: rest =>
    if cur.num = num then some rest
    else (unlink_first num rest).map (fun l => cur :: l)

/-- The function `verb_delete_handler`, lines 276-298. -/
def verb_delete_handler {κ : Type} (line : List Char) (w : World κ) : World κ :=
  let r := strtoull line
  let num := r.1
  if r.2 ≠ 0 then
    { w with out := w.out ++ [Ev.printf "errno: %d\n" [Arg.num r.2]] }
  else
    match unlink_first num w.dbg_state.breakpoints with
    | some l => { w with dbg_state := { w.dbg_state with breakpoints := l } }
    | none =>
      { w with out := w.out ++ [Ev.printf "No such breakpoint (#%llu)\n" [Arg.num num]] }

/-- The function `verb_slow_handler`, lines 413-418. -/
def verb_slow_handler {κ : Type} (line : List Char) (w : World κ) : World κ :=
  let usecs := (strtoul line).1
  { w with
    dbg_state := { w.dbg_state with slow_factor := usecs % 2 ^ 32 }
    out := w.out ++ [Ev.printf "Slow factor %u -> %u\n"
      [Arg.num w.dbg_state.slow_factor, Arg.num (usecs % 2 ^ 32)]] }

/-- The function `verb_examine_handler`, lines 325-334. -/
def verb_examine_handler {κ : Type} (E : Emulator κ) (line : List Char)
    (w : World κ) : World κ :=
  let addr := (strtoul line).1 % 2 ^ 32
  let old_suppress := w.shoe.suppress_exceptions
  let r := E.lget { w.shoe with suppress_exceptions := 1 } addr 4
  { w with
    shoe := { r.2 with suppress_exceptions := old_suppress }
    out := w.out ++ [Ev.printf "(uint32_t)*0x%08x = 0x%08x\n"
      [Arg.num addr, Arg.num (r.1 % 2 ^ 32)]] }

/-- The function `verb_trace_toggle_handler`, lines 320-323. -/
def verb_trace_toggle_handler {κ : Type} (_line : List Char) (w : World κ) : World κ :=
  { w with dbg_state := { w.dbg_state with trace := !w.dbg_state.trace } }

/-- The function `verb_help_handler`, lines 301-304. -/
def verb_help_handler {κ : Type} (_line : List Char) (w : World κ) : World κ :=
  { w with out := w.out ++ [Ev.printf "Help help help\n" []] }

/-- A console command on the breakpoint table, with its argument text. -/
inductive Cmd where
  | brk (line : List Char)
  | del (line : List Char)
  deriving DecidableEq

/-- One command, as `execute_verb` hands it to its handler. -/
def exec_cmd {κ : Type} (w : World κ) : Cmd → World κ
  | .brk line => verb_break_handler line w
  | .del line => verb_delete_handler line w

/-- A sequence of commands, in order. -/
def exec_cmds {κ : Type} (w : World κ) (cmds : List Cmd) : World κ :=
  cmds.foldl exec_cmd w

/-- The number of `break` commands in a sequence. -/
def count_brk : List Cmd → Nat
  | [] => 0
  | .brk _ :: cs => count_brk cs + 1
  | .del _ :: cs => count_brk cs

/-- The identifier a log entry hands out: the first argument of a
`Set breakpoint` line. -/
def assigned_id : Ev → Option Nat
  | Ev.printf fmt (Arg.num n :: _) =>
    if fmt = "Set breakpoint %llu = *0x%08x\n" then some n else none
  | _ => none

/-- The identifiers handed out so far, oldest first. -/
def assigned_ids (out : List Ev) : List Nat := out.filterMap assigned_id

/-- A session with no emulator behind it, for concrete runs of the table
commands. -/
def shoe_idle : shoe_t Unit :=
  { pc := 0, a := fun _ => 0, sr_s := false, abort := 0, suppress_exceptions := 0,
    cpu_thread_notifications := 0, physical_rom_size := 0, core := () }

/-- The world at start-up over `shoe_idle`. -/
def world_init : World Unit := { shoe := shoe_idle, dbg_state := dbg_state_init, out := [] }

/-- What holds of a session after some commands, `m` bounding the counter. -/
def ids_inv {κ : Type} (w : World κ) (m : Nat) : Prop :=
  w.dbg_state.breakpoint_counter ≤ m ∧
  (assigned_ids w.out).Pairwise (· < ·) ∧
  (∀ n ∈ assigned_ids w.out, n < w.dbg_state.breakpoint_counter) ∧
  (w.dbg_state.breakpoints.map (·.num)).Pairwise (· < ·) ∧
  (∀ b ∈ w.dbg_state.breakpoints, b.num < w.dbg_state.breakpoint_counter)

/-! ## Program counter display (`print_pc`, `printregs`) -/

/-- The scan of `macii_rom_symbols`, lines 98-103 and 113-118: `name` is the
name found so far, and the scan stops at the first entry above `addr`. -/
def rom_symbol_scan (addr : Nat) : List rom_symbol → Option (List Char) → Option (List Char)
  | [], name => name
  | s :: rest, name =>
    if s.addr > addr then name else rom_symbol_scan addr rest (some s.name)

/-- The choice of `name` in `print_pc`, lines 94-123; `none` is the NULL pointer.
A `physical_rom_size` of zero, on which the source divides by zero, is outside
the model. -/
def print_pc_name {κ : Type} (E : Emulator κ) (shoe : shoe_t κ) : Option (List Char) :=
  if shoe.pc ≥ 0x40000000 ∧ shoe.pc < 0x50000000 then
    rom_symbol_scan (shoe.pc % shoe.physical_rom_size) E.macii_rom_symbols none
  else if shoe.sr_s then
    match E.coff_find_func shoe shoe.pc with
    | some symb => if strlen symb.name ≠ 0 then some symb.name else none
    | none => none
  else if shoe.pc ≥ 0x10000000 ∧ shoe.pc < 0x20000000 then
    rom_symbol_scan (shoe.pc % shoe.physical_rom_size) E.macii_rom_symbols none
  else some []

/-- The loop of lines 128-130, `n` bytes still to read, the next at index `i`:
the bytes read so far and the emulator state. -/
def read_binary {κ : Type} (E : Emulator κ) :
    Nat → Nat → shoe_t κ → List Nat → List Nat × shoe_t κ
  | 0, _, shoe, binary => (binary, shoe)
  | n + 1, i, shoe, binary =>
    read_binary E n (i + 1) (E.lget shoe ((shoe.pc + i) % 2 ^ 32) 1).2
      (binary ++ [(E.lget shoe ((shoe.pc + i) % 2 ^ 32) 1).1 % 256])

/-- The three kinds of `printf` of lines 134-138. -/
def print_pc_events (pc : Nat) (name : Option (List Char)) (binary : List Nat)
    (str : List Char) (len : Nat) : List Ev :=
  [Ev.printf "*0x%08x %s [ " [Arg.num pc, Arg.str (name.getD [])]] ++
  (List.range ((len + 1) / 2)).map (fun k =>
    Ev.printf "%02x%02x " [Arg.num (binary.getD (2 * k) 0), Arg.num (binary.getD (2 * k + 1) 0)]) ++
  [Ev.printf "]  %s\n" [Arg.str str]]

/-- The function `print_pc`, lines 88-143. -/
def print_pc {κ : Type} (E : Emulator κ) (w : World κ) : World κ :=
  let name := print_pc_name E w.shoe
  let old_abort := w.shoe.abort % 2 ^ 16
  let r := read_binary E 32 0 { w.shoe with suppress_exceptions := 1 } []
  let d := E.disassemble_inst r.1 r.2.pc
  { w with
    shoe := { r.2 with abort := old_abort, suppress_exceptions := 0 }
    out := w.out ++ print_pc_events r.2.pc name r.1 d.1 d.2 }

/-- The function `printregs`, lines 57-86: it reads registers and prints them,
and changes nothing; the register dump is one log entry. -/
def printregs {κ : Type} (w : World κ) : World κ :=
  { w with out := w.out ++ [Ev.printregs w.shoe.pc] }

/-! ## Stepping (`stepper`, `verb_continue_handler`, `verb_stepi_handler`) -/

/-- The call `cpu_step()`. -/
def cpu_step {κ : Type} (E : Emulator κ) (w : World κ) : World κ :=
  { w with shoe := E.cpu_step w.shoe, out := w.out ++ [Ev.cpu_step] }

/-- Lines 358-369 of `stepper`: pending notifications. -/
def stepper_notifications {κ : Type} (E : Emulator κ) (w : World κ) : World κ :=
  if w.shoe.cpu_thread_notifications ≠ 0 then
    if w.shoe.cpu_thread_notifications &&& 0xff ≠ 0 then
      { w with shoe := E.process_pending_interrupt w.shoe
               out := w.out ++ [Ev.process_pending_interrupt] }
    else w
  else w

/-- Lines 380-386 of `stepper`: the walk over the breakpoint list from `cur` on. -/
def breakpoint_scan {κ : Type} : List dbg_breakpoint_t → World κ → World κ
  | [], w => w
  | cur :: rest, w =>
    if w.shoe.pc = cur.addr then
      { w with
        dbg_state := { w.dbg_state with running := 0 }
        out := w.out ++
          [Ev.printf "Hit breakpoint %llu *0x%08x\n" [Arg.num cur.num, Arg.num w.shoe.pc]] }
    else breakpoint_scan rest w

/-- Lines 358-378 of `stepper`: notifications, one instruction, trace output. -/
def stepper_exec {κ : Type} (E : Emulator κ) (w : World κ) : World κ :=
  let w1 := stepper_notifications E w
  let w2 := cpu_step E w1
  if w2.dbg_state.trace then printregs (print_pc E w2) else w2

/-- The function `stepper`, lines 354-387. -/
def stepper {κ : Type} (E : Emulator κ) (w : World κ) : World κ :=
  breakpoint_scan (stepper_exec E w).dbg_state.breakpoints (stepper_exec E w)

/-- The body of the loop of `verb_continue_handler`, lines 393-395. -/
def continue_body {κ : Type} (E : Emulator κ) (w : World κ) : World κ :=
  stepper E
    (if w.dbg_state.slow_factor ≠ 0 then
      { w with out := w.out ++ [Ev.usleep w.dbg_state.slow_factor] }
    else w)

/-- The loop of `verb_continue_handler`, lines 392-396, with fuel for the number
of times the loop condition is tested; `none` is fuel running out. -/
def continue_loop {κ : Type} (E : Emulator κ) : Nat → World κ → Option (World κ)
  | 0, _ => none
  | fuel + 1, w =>
    if w.dbg_state.running ≠ 0 then continue_loop E fuel (continue_body E w)
    else some w

/-- The assignment `dbg_state.running = v`. -/
def set_running {κ : Type} (v : Nat) (w : World κ) : World κ :=
  { w with dbg_state := { w.dbg_state with running := v } }

/-- The function `verb_continue_handler`, lines 389-398. -/
def verb_continue_handler {κ : Type} (E : Emulator κ) (fuel : Nat) (_line : List Char)
    (w : World κ) : Option (World κ) :=
  (continue_loop E fuel (set_running 1 w)).map (print_pc E)

/-- The function `verb_stepi_handler`, lines 307-313. -/
def verb_stepi_handler {κ : Type} (E : Emulator κ) (_line : List Char)
    (w : World κ) : World κ :=
  print_pc E (set_running 0 (cpu_step E (set_running 1 w)))

/-- The single step as the specification words it: running on, one `stepper`
call, running off, print the instruction. -/
def stepi_by_stepper {κ : Type} (E : Emulator κ) (_line : List Char)
    (w : World κ) : World κ :=
  print_pc E (set_running 0 (stepper E (set_running 1 w)))

/-- The program counter `k` instructions into a continue request made in `w`:
after `k` rounds of the loop body from `running = 1`. -/
def pc_after {κ : Type} (E : Emulator κ) (w : World κ) (k : Nat) : Nat :=
  ((continue_body E)^[k] (set_running 1 w)).shoe.pc

/-- The number of instructions executed so far: the `cpu_step` calls in the log. -/
def cpu_steps (out : List Ev) : Nat := out.count Ev.cpu_step

/-! ## Backtrace (`verb_backtrace_handler`) -/

/-- Sequencing of outcomes. -/
def Outcome.bind {α β : Type} : Outcome α → (α → Outcome β) → Outcome β
  | .returned a, f => f a
  | .null_deref, _ => .null_deref
  | .out_of_fuel, _ => .out_of_fuel

/-- The frame line of lines 214-219 and 235-240 for frame `i` at address `addr`.
In supervisor mode the `printf` arguments read `symb->value`; with `symb` NULL
that is a read through a null pointer, here `none`. -/
def frame_line {κ : Type} (E : Emulator κ) (shoe : shoe_t κ) (i addr : Nat) : Option Ev :=
  if shoe.sr_s then
    match E.coff_find_func shoe addr with
    | some symb =>
      some (Ev.printf "%u:  *0x%08x  %s+%u\n"
        [Arg.num i, Arg.num addr,
          Arg.str (if strlen symb.name ≠ 0 then symb.name else "?".data),
          Arg.num ((addr + 2 ^ 32 - symb.value % 2 ^ 32) % 2 ^ 32)])
    | none => none
  else some (Ev.printf "%u:  *0x%08x\n" [Arg.num i, Arg.num addr])

/-- The loop of lines 228-231 from `j` on, with fuel for the tests of `j < last_a6`. -/
def bt_locals {κ : Type} (E : Emulator κ) :
    Nat → Nat → Nat → World κ → Outcome (World κ)
  | 0, _, _, _ => .out_of_fuel
  | fuel + 1, j, last_a6, w =>
    if j < last_a6 then
      bt_locals E fuel ((j + 4) % 2 ^ 32) last_a6
        { w with
          shoe := (E.lget w.shoe j 4).2
          out := w.out ++ [Ev.printf "%x, " [Arg.num ((E.lget w.shoe j 4).1 % 2 ^ 32)]] }
    else .returned w

/-- The loop of lines 221-247 from frame `i` with frame pointer `a6`, with fuel
for the number of frames; the inner loop of a frame gets the fuel left. -/
def bt_frames {κ : Type} (E : Emulator κ) :
    Nat → Nat → Nat → World κ → Outcome (World κ)
  | 0, _, _, _ => .out_of_fuel
  | fuel + 1, i, a6, w =>
    let a7 := a6
    let r1 := E.lget w.shoe a7 4
    let last_a6 := r1.1 % 2 ^ 32
    let r2 := E.lget r1.2 ((a7 + 4) % 2 ^ 32) 4
    let last_pc := r2.1 % 2 ^ 32
    let w1 : World κ := { w with shoe := r2.2 }
    let delta := (last_a6 + 2 ^ 32 - a6) % 2 ^ 32
    let locals : Outcome (World κ) :=
      if delta ≤ 1000 then
        (bt_locals E fuel ((a6 + 8) % 2 ^ 32) last_a6
            { w1 with out := w1.out ++ [Ev.printf "    \x7b" []] }).bind
          (fun w2 => .returned { w2 with out := w2.out ++ [Ev.printf "\x7d\n" []] })
      else .returned w1
    locals.bind (fun w3 =>
      match frame_line E w3.shoe i last_pc with
      | none => .null_deref
      | some ev =>
        let w4 : World κ := { w3 with out := w3.out ++ [ev] }
        if delta > 1000 then .returned w4
        else bt_frames E fuel ((i + 1) % 2 ^ 32) last_a6 w4)

/-- The function `verb_backtrace_handler`, lines 184-251. -/
def verb_backtrace_handler {κ : Type} (E : Emulator κ) (fuel : Nat) (_line : List Char)
    (w : World κ) : Outcome (World κ) :=
  let old_abort := w.shoe.abort % 2 ^ 32
  let shoe1 : shoe_t κ := { w.shoe with suppress_exceptions := 1, abort := 0 }
  let a6 := shoe1.a 6 % 2 ^ 32
  match frame_line E shoe1 0 shoe1.pc with
  | none => .null_deref
  | some ev =>
    (bt_frames E fuel 1 a6 { w with shoe := shoe1, out := w.out ++ [ev] }).bind
      (fun w5 => .returned
        { w5 with shoe := { w5.shoe with suppress_exceptions := 0, abort := old_abort } })

/-! ## A small emulator for concrete runs -/

/-- An emulator whose memory answers a read at address `a` with `core a`, whose
instructions are two bytes long and do nothing else, and that has no symbols. -/
def flat_emulator : Emulator (Nat → Nat) :=
  { cpu_step := fun s => { s with pc := (s.pc + 2) % 2 ^ 32 }
    process_pending_interrupt := fun s => { s with cpu_thread_notifications := 0 }
    lget := fun s a _ => (s.core a, s)
    disassemble_inst := fun _ _ => ("nop".data, 2)
    coff_find_func := fun _ _ => none
    macii_rom_symbols := [] }

/-- A user-mode machine over `flat_emulator` with program counter `pc`, frame
pointer `a6` in `a[6]`, and memory `mem`. -/
def flat_shoe (pc a6 : Nat) (mem : Nat → Nat) : shoe_t (Nat → Nat) :=
  { pc := pc, a := fun r => if r = 6 then a6 else 0, sr_s := false, abort := 0,
    suppress_exceptions := 0, cpu_thread_notifications := 0, physical_rom_size := 0x40000,
    core := mem }

/-- A session over `flat_emulator` stopped at `0x100`, with breakpoint 0 at
`0x104` and a frame pointer `0x2000` whose saved frame pointer is `0x2000`. -/
def world_flat : World (Nat → Nat) :=
  { shoe := flat_shoe 0x100 0x2000 (fun a => if a = 0x2000 then 0x2000 else 0)
    dbg_state := { dbg_state_init with breakpoints := [{ num := 0, addr := 0x104 }] }
    out := [] }

/-- The session `world_flat` with trace switched on, an interrupt pending, and
a second breakpoint at `0x102`. -/
def world_traced : World (Nat → Nat) :=
  { shoe := { flat_shoe 0x100 0x2000 (fun _ => 0) with cpu_thread_notifications := 1 }
    dbg_state := { dbg_state_init with
      trace := true
      breakpoints := [{ num := 0, addr := 0x104 }, { num := 1, addr := 0x102 }] }
    out := [] }

/-- The log of a run that returned. -/
def Outcome.log {κ : Type} : Outcome (World κ) → Option (List Ev)
  | .returned w => some w.out
  | _ => none

/-- A session over `flat_emulator` whose frame at `0x2000` saves the frame
pointer `0x2010`, whose frame in turn saves `0x2000`: a cycle of two frames. -/
def world_cycle : World (Nat → Nat) :=
  { shoe := flat_shoe 0x100 0x2000
      (fun a => if a = 0x2000 then 0x2010 else if a = 0x2010 then 0x2000 else 0)
    dbg_state := dbg_state_init
    out := [] }

/-! ## Symbols and frames: helpers for the claims -/

/-- The 32-bit word that `lget(a, 4)` reads in state `shoe`. -/
def mem32 {κ : Type} (E : Emulator κ) (shoe : shoe_t κ) (a : Nat) : Nat :=
  (E.lget shoe a 4).1 % 2 ^ 32

/-- The words at `j`, `j + 4`, ..., `n` of them, as `lget` returns them one
after the other, each read made in the state that the read before it left;
with the state after the last read. -/
def read_words {κ : Type} (E : Emulator κ) : Nat → Nat → shoe_t κ → List Nat × shoe_t κ
  | 0, _, shoe => ([], shoe)
  | n + 1, j, shoe =>
    ((E.lget shoe j 4).1 % 2 ^ 32 :: (read_words E n (j + 4) (E.lget shoe j 4).2).1,
     (read_words E n (j + 4) (E.lget shoe j 4).2).2)

/-- Whether a run ended in a read through a null pointer. -/
def Outcome.is_null_deref {α : Type} : Outcome α → Bool
  | .null_deref => true
  | _ => false

/-- The emulator `flat_emulator` with a ROM symbol table of three entries and a
program with one function, `main`, at `0x100` up to `0x200`. -/
def sym_emulator : Emulator (Nat → Nat) :=
  { flat_emulator with
    coff_find_func := fun _ addr =>
      if 0x100 ≤ addr ∧ addr < 0x200 then some { name := "main".data, value := 0x100 }
      else none
    macii_rom_symbols :=
      [{ addr := 0x10, name := "Start".data }, { addr := 0x20, name := "Reset".data },
       { addr := 0x30, name := "Boot".data }] }

/-- A machine as `flat_shoe`, in supervisor mode when `s` is true. -/
def mode_shoe (s : Bool) (pc a6 : Nat) (mem : Nat → Nat) : shoe_t (Nat → Nat) :=
  { flat_shoe pc a6 mem with sr_s := s }

/-- A session stopped in `main` at `0x100` in supervisor mode, whose frame at
`0x2000` saves the frame pointer `0x3000` and the return address `0x5000`,
which lies in no function. -/
def world_super : World (Nat → Nat) :=
  { shoe := mode_shoe true 0x100 0x2000
      (fun a => if a = 0x2000 then 0x3000 else if a = 0x2004 then 0x5000 else 0)
    dbg_state := dbg_state_init
    out := [] }

theorem toNat_ofNat_small (n : Nat) (h : n < 55296) : (Char.ofNat n).toNat = n := by
  unfold Char.ofNat
  have hv : n.isValidChar := Or.inl h
  simp only [hv, dite_true, Char.ofNatAux, Char.toNat]
  show (UInt32.toNat ⟨_⟩) = n
  simp [UInt32.toNat]

theorem char_eq_of_toNat {a b : Char} (h : a.toNat = b.toNat) : a = b := by
  rw [← Char.ofNat_toNat a, ← Char.ofNat_toNat b, h]

theorem tolower_toNat (c : Char) :
    (tolower c).toNat = if 65 ≤ c.toNat ∧ c.toNat ≤ 90 then c.toNat + 32 else c.toNat := by
  unfold tolower
  split
  · rw [toNat_ofNat_small]; omega
  · rfl

theorem tolower_toNat_ne_zero {c : Char} (h : c ≠ Char.ofNat 0) : (tolower c).toNat ≠ 0 := by
  intro h0
  rw [tolower_toNat] at h0
  split at h0
  · omega
  · exact h (char_eq_of_toNat (by rw [h0]; rfl))

theorem isspace_tolower (c : Char) : isspace (tolower c) = isspace c := by
  unfold isspace
  rw [tolower_toNat]
  split
  · rename_i h
    have h1 : ¬ (c.toNat + 32 = 32) := by omega
    have h2 : ¬ (c.toNat = 32) := by omega
    have h3 : ¬ (c.toNat + 32 ≤ 13) := by omega
    have h4 : ¬ (c.toNat ≤ 13) := by omega
    have h5 : ¬ (c.toNat = 0) := by omega
    simp [h1, h2, h3, h4, h5]
  · rfl

/-- Over strings without NUL, `strcasecmp` is zero exactly when the strings
agree after `tolower`. -/
theorem strcasecmp_eq_zero_iff (a b : List Char)
    (ha : Char.ofNat 0 ∉ a) (hb : Char.ofNat 0 ∉ b) :
    strcasecmp a b = 0 ↔ a.map tolower = b.map tolower := by
  induction a generalizing b with
  | nil =>
    cases b with
    | nil => simp [strcasecmp]
    | cons d ds =>
      have hd : d ≠ Char.ofNat 0 := fun h => hb (by simp [h])
      have := tolower_toNat_ne_zero hd
      simp only [strcasecmp, List.map_nil, List.map_cons]
      constructor
      · intro h; omega
      · intro h; cases h
  | cons c cs ih =>
    have hc : c ≠ Char.ofNat 0 := fun h => ha (by simp [h])
    have hcs : Char.ofNat 0 ∉ cs := fun h => ha (List.mem_cons_of_mem _ h)
    cases b with
    | nil =>
      have := tolower_toNat_ne_zero hc
      simp only [strcasecmp, List.map_nil, List.map_cons]
      constructor
      · intro h; omega
      · intro h; cases h
    | cons d ds =>
      have hds : Char.ofNat 0 ∉ ds := fun h => hb (List.mem_cons_of_mem _ h)
      simp only [strcasecmp, List.map_cons, List.cons.injEq]
      by_cases hcd : tolower c = tolower d
      · simp only [hcd, if_true, true_and]
        exact ih ds hcs hds
      · simp only [hcd, if_false, false_and, iff_false]
        intro h
        exact hcd (char_eq_of_toNat (by omega))

theorem not_mem_take {α : Type} {x : α} {l : List α} (n : Nat) (h : x ∉ l) : x ∉ l.take n :=
  fun hx => h (List.mem_of_mem_take hx)

theorem abbrev_test_iff (verb name : List Char)
    (hv : Char.ofNat 0 ∉ verb) (hn : Char.ofNat 0 ∉ name) :
    (strlen name ≥ strlen verb ∧ strncasecmp verb name (strlen verb) = 0)
      ↔ ci_starts verb name := by
  unfold ci_starts strncasecmp strlen
  rw [List.take_length, strcasecmp_eq_zero_iff verb _ hv (not_mem_take _ hn)]
  constructor
  · rintro ⟨h1, h2⟩; exact ⟨h1, h2.symm⟩
  · rintro ⟨h1, h2⟩; exact ⟨h1, h2.symm⟩

/-! ## Facts about the table and the table loop -/

theorem table_names_lower : ∀ e ∈ verb_handler_table, e.name.map tolower = e.name := by
  decide

theorem table_names_no_nul : ∀ e ∈ verb_handler_table, Char.ofNat 0 ∉ e.name := by
  decide

theorem table_names_no_space :
    ∀ e ∈ verb_handler_table, ∀ c ∈ e.name, isspace c = false := by
  decide

theorem table_names_length :
    ∀ e ∈ verb_handler_table, e.name ≠ [] ∧ e.name.length ≤ 127 := by
  decide

theorem table_names_func :
    ∀ e1 ∈ verb_handler_table, ∀ e2 ∈ verb_handler_table,
      e1.name = e2.name → e1.func = e2.func := by
  decide

theorem scan_table_perfect (verb : List Char) (es : List verb_handler_table_t)
    (i m mi : Nat) (h : ∃ e ∈ es, strcasecmp verb e.name = 0) :
    ∃ k e, es.get? k = some e ∧ strcasecmp verb e.name = 0 ∧
      scan_table verb es i m mi = .perfect (i + k) := by
  induction es generalizing i m mi with
  | nil => obtain ⟨e, he, _⟩ := h; cases he
  | cons e0 es ih =>
    by_cases h0 : strcasecmp verb e0.name = 0
    · exact ⟨0, e0, rfl, h0, by simp [scan_table, h0]⟩
    · have h' : ∃ e ∈ es, strcasecmp verb e.name = 0 := by
        obtain ⟨e, he, hz⟩ := h
        rcases List.mem_cons.1 he with rfl | he'
        · exact absurd hz h0
        · exact ⟨e, he', hz⟩
      by_cases hp : strlen e0.name ≥ strlen verb ∧ strncasecmp verb e0.name (strlen verb) = 0
      · obtain ⟨k, e, hk, hz, hs⟩ := ih (i + 1) (m + 1) i h'
        refine ⟨k + 1, e, by simpa using hk, hz, ?_⟩
        simp only [scan_table, h0, if_false, hp, and_self, if_true]
        rw [hs]; congr 1; omega
      · obtain ⟨k, e, hk, hz, hs⟩ := ih (i + 1) m mi h'
        refine ⟨k + 1, e, by simpa using hk, hz, ?_⟩
        simp only [scan_table, h0, if_false, hp]
        rw [hs]; congr 1; omega

theorem scan_table_fell (verb : List Char) (es : List verb_handler_table_t)
    (i m mi : Nat) (h : ∀ e ∈ es, strcasecmp verb e.name ≠ 0) :
    ∃ mi', scan_table verb es i m mi
        = .fell (m + (es.filter (abbrev_test verb)).length) mi' ∧
      (∀ e, es.filter (abbrev_test verb) = [e] →
        ∃ k, mi' = i + k ∧ es.get? k = some e) ∧
      (es.filter (abbrev_test verb) = [] → mi' = mi) := by
  induction es generalizing i m mi with
  | nil => exact ⟨mi, rfl, by simp, by simp⟩
  | cons e0 es ih =>
    have h0 : strcasecmp verb e0.name ≠ 0 := h e0 (List.mem_cons_self _ _)
    have h' : ∀ e ∈ es, strcasecmp verb e.name ≠ 0 :=
      fun e he => h e (List.mem_cons_of_mem _ he)
    by_cases hp : strlen e0.name ≥ strlen verb ∧ strncasecmp verb e0.name (strlen verb) = 0
    · have hpt : abbrev_test verb e0 = true := by simp [abbrev_test, hp]
      obtain ⟨mi', hs, _, hnil⟩ := ih (i + 1) (m + 1) i h'
      refine ⟨mi', ?_, ?_, ?_⟩
      · simp only [scan_table, h0, if_false, hp, and_self, if_true, List.filter_cons, hpt,
          List.length_cons]
        rw [hs]; congr 1; omega
      · intro e he
        rw [List.filter_cons, if_pos hpt] at he
        injection he with he1 he2
        exact ⟨0, by rw [hnil he2]; rfl, by simp [he1]⟩
      · intro he
        rw [List.filter_cons, if_pos hpt] at he
        cases he
    · have hpt : abbrev_test verb e0 = false := by simp [abbrev_test, hp]
      obtain ⟨mi', hs, hone, hnil⟩ := ih (i + 1) m mi h'
      refine ⟨mi', ?_, ?_, ?_⟩
      · simp only [scan_table, h0, if_false, hp, List.filter_cons, hpt]
        rw [hs]; rfl
      · intro e he
        rw [List.filter_cons, hpt] at he
        obtain ⟨k, hk, hg⟩ := hone e he
        exact ⟨k + 1, by omega, by simpa using hg⟩
      · intro he
        rw [List.filter_cons, hpt] at he
        exact hnil he

theorem filter_abbrev_test_eq (verb : List Char) (hv : Char.ofNat 0 ∉ verb) :
    verb_handler_table.filter (abbrev_test verb) = candidates verb := by
  unfold candidates
  apply List.filter_congr
  intro e he
  unfold abbrev_test
  exact decide_eq_decide.2 (abbrev_test_iff verb e.name hv (table_names_no_nul e he))

/-! ## Facts about the tokeniser -/

theorem dropWhile_isspace_append (ws tl : List Char) (hws : ∀ c ∈ ws, isspace c = true)
    (htl : ∀ c ∈ tl.head?, isspace c = false) :
    (ws ++ tl).dropWhile isspace = tl := by
  induction ws with
  | nil =>
    cases tl with
    | nil => rfl
    | cons c t =>
      have : isspace c = false := htl c (by simp)
      simp [List.dropWhile, this]
  | cons w ws ih =>
    have hw : isspace w = true := hws w (List.mem_cons_self _ _)
    simp only [List.cons_append, List.dropWhile, hw]
    exact ih (fun c hc => hws c (List.mem_cons_of_mem _ hc))

theorem takeWhile_nonspace_append (verb rest : List Char)
    (hv : ∀ c ∈ verb, isspace c = false) (hrest : ∀ c ∈ rest.head?, isspace c = true) :
    (verb ++ rest).takeWhile (fun c => !isspace c) = verb := by
  induction verb with
  | nil =>
    cases rest with
    | nil => rfl
    | cons c t =>
      have : isspace c = true := hrest c (by simp)
      simp [List.takeWhile, this]
  | cons v vs ih =>
    have hv0 : isspace v = false := hv v (List.mem_cons_self _ _)
    simp only [List.cons_append, List.takeWhile, hv0, Bool.not_false]
    exact congrArg (List.cons v) (ih (fun c hc => hv c (List.mem_cons_of_mem _ hc)))

theorem dropWhile_nonspace_append (verb rest : List Char)
    (hv : ∀ c ∈ verb, isspace c = false) (hrest : ∀ c ∈ rest.head?, isspace c = true) :
    (verb ++ rest).dropWhile (fun c => !isspace c) = rest := by
  induction verb with
  | nil =>
    cases rest with
    | nil => rfl
    | cons c t =>
      have : isspace c = true := hrest c (by simp)
      simp [List.dropWhile, this]
  | cons v vs ih =>
    have hv0 : isspace v = false := hv v (List.mem_cons_self _ _)
    simp only [List.cons_append, List.dropWhile, hv0, Bool.not_false]
    exact ih (fun c hc => hv c (List.mem_cons_of_mem _ hc))

theorem sscanf_verb_token (ws verb rest : List Char)
    (hws : ∀ c ∈ ws, isspace c = true) (hne : verb ≠ [])
    (hv : ∀ c ∈ verb, isspace c = false) (hlen : verb.length ≤ 127)
    (hrest : ∀ c ∈ rest.head?, isspace c = true) :
    sscanf_verb (ws ++ verb ++ rest) = some verb := by
  unfold sscanf_verb
  have hhead : ∀ c ∈ (verb ++ rest).head?, isspace c = false := by
    cases verb with
    | nil => exact absurd rfl hne
    | cons v vs => intro c hc; simp at hc; subst hc; exact hv _ (List.mem_cons_self _ _)
  rw [List.append_assoc, dropWhile_isspace_append ws _ hws hhead,
    takeWhile_nonspace_append verb rest hv hrest, List.take_of_length_le hlen]
  simp [hne]

theorem sscanf_verb_subset (line verb : List Char) (h : sscanf_verb line = some verb) :
    ∀ c ∈ verb, c ∈ line := by
  unfold sscanf_verb at h
  simp only at h
  split at h
  · cases h
  · injection h with h
    subst h
    intro c hc
    have h1 := List.mem_of_mem_take hc
    have h2 := (List.takeWhile_sublist _).subset h1
    exact (List.dropWhile_sublist _).subset h2

/-! ## Verb dispatch: the claims -/

theorem ci_eq_facts (e : verb_handler_table_t) (he : e ∈ verb_handler_table)
    (verb : List Char) (hcase : ci_eq verb e.name) :
    verb ≠ [] ∧ verb.length ≤ 127 ∧ (∀ c ∈ verb, isspace c = false) ∧
      Char.ofNat 0 ∉ verb := by
  unfold ci_eq at hcase
  have hlen : verb.length = e.name.length := by
    have := congrArg List.length hcase
    simpa using this
  obtain ⟨hne, hle⟩ := table_names_length e he
  have hmem : ∀ c ∈ verb, ∃ d ∈ e.name, tolower d = tolower c := by
    intro c hc
    have : tolower c ∈ verb.map tolower := List.mem_map_of_mem _ hc
    rw [hcase] at this
    obtain ⟨d, hd, hdc⟩ := List.mem_map.1 this
    exact ⟨d, hd, hdc⟩
  refine ⟨?_, by omega, ?_, ?_⟩
  · intro h
    rw [h] at hlen
    exact hne (List.length_eq_zero.1 hlen.symm)
  · intro c hc
    obtain ⟨d, hd, hdc⟩ := hmem c hc
    rw [← isspace_tolower c, ← hdc, isspace_tolower d]
    exact table_names_no_space e he d hd
  · intro hc
    obtain ⟨d, hd, hdc⟩ := hmem _ hc
    have h0 : (tolower d).toNat = 0 := by rw [hdc]; rfl
    have hd0 : d ≠ Char.ofNat 0 := fun h => table_names_no_nul e he (h ▸ hd)
    exact tolower_toNat_ne_zero hd0 h0

theorem call_entry_get (k : Nat) (e : verb_handler_table_t) (remainder : List Char)
    (h : verb_handler_table.get? k = some e) :
    call_entry k remainder = [Ev.call e.func remainder] := by
  unfold call_entry
  rw [h]

/-- C1. A registered verb name, typed in any letter case, after any white space
and followed by nothing or by white space and any argument text, makes
`execute_verb` call the handler bound to that name exactly once and print
nothing, whatever other names the typed verb abbreviates. -/
theorem execute_verb_exact_match (e : verb_handler_table_t)
    (he : e ∈ verb_handler_table) (verb : List Char) (hcase : ci_eq verb e.name)
    (ws rest : List Char) (hws : ∀ c ∈ ws, isspace c = true)
    (hrest : ∀ c ∈ rest.head?, isspace c = true) :
    execute_verb (ws ++ verb ++ rest)
      = [Ev.call e.func (skip_remainder (ws ++ verb ++ rest))] := by
  obtain ⟨hne, hlen, hsp, hnul⟩ := ci_eq_facts e he verb hcase
  have hz : strcasecmp verb e.name = 0 :=
    (strcasecmp_eq_zero_iff verb e.name hnul (table_names_no_nul e he)).2 hcase
  obtain ⟨k, e', hk, hz', hs⟩ :=
    scan_table_perfect verb verb_handler_table 0 0 0 ⟨e, he, hz⟩
  have he' : e' ∈ verb_handler_table := List.get?_mem hk
  have hcase' : ci_eq verb e'.name :=
    (strcasecmp_eq_zero_iff verb e'.name hnul (table_names_no_nul e' he')).1 hz'
  have hname : e'.name = e.name := by
    unfold ci_eq at hcase hcase'
    rw [← table_names_lower e' he', ← table_names_lower e he, ← hcase', hcase]
  have hfunc : e'.func = e.func := table_names_func e' he' e he hname
  unfold execute_verb
  rw [sscanf_verb_token ws verb rest hws hne hsp hlen hrest]
  simp only [hs, Nat.zero_add]
  rw [call_entry_get k e' _ hk, hfunc]

/-- C1, instance: `QUIT` followed by arguments, where `quit` is in the table. -/
theorem execute_verb_exact_match_witness :
    execute_verb ("  ".data ++ "QuIt".data ++ " now\n".data)
      = [Ev.call Handler.verb_quit_handler
          (skip_remainder ("  ".data ++ "QuIt".data ++ " now\n".data))] :=
  execute_verb_exact_match ⟨"quit".data, Handler.verb_quit_handler⟩ (by decide)
    "QuIt".data (by decide) "  ".data " now\n".data (by decide) (by decide)

/-- C2. When the stored verb equals no registered name up to letter case,
`execute_verb` calls a handler exactly when one registered name is at least as
long as the verb and starts with it up to letter case; it then calls that
name's handler once and prints nothing. With no such name, or with two or more,
no handler is called and the one effect is `printf("  %s?\n", verb)`. -/
theorem execute_verb_abbreviation (line verb : List Char)
    (hnul : Char.ofNat 0 ∉ line) (hverb : sscanf_verb line = some verb)
    (hexact : ∀ e ∈ verb_handler_table, ¬ ci_eq verb e.name) :
    (∀ e, candidates verb = [e] →
        execute_verb line = [Ev.call e.func (skip_remainder line)]) ∧
    ((candidates verb).length ≠ 1 →
        execute_verb line = [Ev.printf "  %s?\n" [Arg.str verb]]) ∧
    ((∃ f arg, Ev.call f arg ∈ execute_verb line) ↔ (candidates verb).length = 1) := by
  have hvnul : Char.ofNat 0 ∉ verb := fun h => hnul (sscanf_verb_subset line verb hverb _ h)
  have hno : ∀ e ∈ verb_handler_table, strcasecmp verb e.name ≠ 0 := by
    intro e he hz
    exact hexact e he
      ((strcasecmp_eq_zero_iff verb e.name hvnul (table_names_no_nul e he)).1 hz)
  obtain ⟨mi', hs, hone, _⟩ := scan_table_fell verb verb_handler_table 0 0 0 hno
  rw [filter_abbrev_test_eq verb hvnul] at hs hone
  have h1 : ∀ e, candidates verb = [e] →
      execute_verb line = [Ev.call e.func (skip_remainder line)] := by
    intro e hc
    obtain ⟨k, hk, hg⟩ := hone e hc
    unfold execute_verb
    rw [hverb]
    simp only [hs, hc, List.length_singleton, Nat.zero_add, if_true]
    rw [hk, Nat.zero_add, call_entry_get k e _ hg]
  have h2 : (candidates verb).length ≠ 1 →
      execute_verb line = [Ev.printf "  %s?\n" [Arg.str verb]] := by
    intro hc
    unfold execute_verb
    rw [hverb]
    simp only [hs, Nat.zero_add, hc, if_false]
  refine ⟨h1, h2, ?_⟩
  constructor
  · rintro ⟨f, arg, hmem⟩
    by_contra hc
    rw [h2 hc] at hmem
    simp at hmem
  · intro hc
    obtain ⟨e, he⟩ := List.length_eq_one.1 hc
    exact ⟨e.func, skip_remainder line, by rw [h1 e he]; simp⟩

/-- C2, instance: `re` abbreviates both `registers` and `reset`, and is rejected;
so are `b`, `s` and a word that abbreviates nothing, while `del` reaches
`delete`. -/
theorem execute_verb_abbreviation_witness :
    (candidates "re".data).length = 2 ∧
    execute_verb "re 5\n".data = [Ev.printf "  %s?\n" [Arg.str "re".data]] ∧
    execute_verb "b 0x1000\n".data = [Ev.printf "  %s?\n" [Arg.str "b".data]] ∧
    execute_verb "s\n".data = [Ev.printf "  %s?\n" [Arg.str "s".data]] ∧
    execute_verb "frob\n".data = [Ev.printf "  %s?\n" [Arg.str "frob".data]] ∧
    execute_verb "del 3\n".data = [Ev.call Handler.verb_delete_handler "3\n".data] :=
  ⟨by decide,
   (execute_verb_abbreviation "re 5\n".data "re".data (by decide) (by decide)
      (by decide)).2.1 (by decide),
   by decide, by decide, by decide, by decide⟩

/-- On a line that starts with its verb, the two pointer loops leave the
argument text: what follows the verb, without the white space in between. -/
theorem skip_remainder_token (verb rest : List Char)
    (hv : ∀ c ∈ verb, isspace c = false) (hrest : ∀ c ∈ rest.head?, isspace c = true) :
    skip_remainder (verb ++ rest) = rest.dropWhile isspace := by
  unfold skip_remainder
  rw [dropWhile_nonspace_append verb rest hv hrest]

/-- C3, failing input. On a line with white space before the verb, the loop that
is to skip past the verb (line 452) stops at once, and the handler receives the
line from the verb itself on, not from the first character after the verb. -/
theorem execute_verb_leading_space :
    sscanf_verb "  break 0x1000\n".data = some "break".data ∧
    execute_verb "  break 0x1000\n".data
      = [Ev.call Handler.verb_break_handler "break 0x1000\n".data] ∧
    execute_verb "break 0x1000\n".data
      = [Ev.call Handler.verb_break_handler "0x1000\n".data] := by
  decide

/-! ## Breakpoint table: the claims -/

/-- C5. With an argument that `strtoul` converts to `a` without error,
`verb_break_handler` prints no error, appends one entry at the tail with the
counter's value before the call as its number and `a` (as a 32-bit value) as
its address, keeps the earlier entries in place, and increments the 64-bit
counter. Two successive `break 0x1000` give two entries with different numbers
and address `0x1000`. -/
theorem verb_break_handler_appends {κ : Type} (line : List Char) (a : Nat)
    (w : World κ) (hparse : strtoul line = (a, 0)) :
    (verb_break_handler line w).dbg_state.breakpoints
        = w.dbg_state.breakpoints ++
          [{ num := w.dbg_state.breakpoint_counter, addr := a % 2 ^ 32 }] ∧
    (a < 2 ^ 32 → (verb_break_handler line w).dbg_state.breakpoints
        = w.dbg_state.breakpoints ++
          [{ num := w.dbg_state.breakpoint_counter, addr := a }]) ∧
    (verb_break_handler line w).dbg_state.breakpoint_counter
        = (w.dbg_state.breakpoint_counter + 1) % 2 ^ 64 ∧
    (w.dbg_state.breakpoint_counter + 1 < 2 ^ 64 →
      (verb_break_handler line w).dbg_state.breakpoint_counter
        = w.dbg_state.breakpoint_counter + 1) ∧
    (verb_break_handler line w).out = w.out ++
        [Ev.printf "Set breakpoint %llu = *0x%08x\n"
          [Arg.num w.dbg_state.breakpoint_counter, Arg.num (a % 2 ^ 32)]] ∧
    (∃ n1 n2, n1 ≠ n2 ∧
      (verb_break_handler "0x1000".data
          (verb_break_handler "0x1000".data w)).dbg_state.breakpoints
        = w.dbg_state.breakpoints ++
          [{ num := n1, addr := 0x1000 }, { num := n2, addr := 0x1000 }]) := by
  have h1 : (strtoul line).2 = 0 := by rw [hparse]
  have h2 : (strtoul line).1 = a := by rw [hparse]
  have hx : strtoul "0x1000".data = (4096, 0) := by decide
  have hx1 : (strtoul "0x1000".data).2 = 0 := by rw [hx]
  have hx2 : (strtoul "0x1000".data).1 = 4096 := by rw [hx]
  refine ⟨?_, ?_, ?_, ?_, ?_, ?_⟩
  · simp [verb_break_handler, h1, h2]
  · intro ha
    have ha' : a % 2 ^ 32 = a := Nat.mod_eq_of_lt ha
    simp only [verb_break_handler, h1, h2, ha', ne_eq, not_true_eq_false, if_false]
  · simp [verb_break_handler, h1]
  · intro hlt
    have hlt' := Nat.mod_eq_of_lt hlt
    simp only [verb_break_handler, h1, hlt', ne_eq, not_true_eq_false, if_false]
  · simp [verb_break_handler, h1, h2]
  · refine ⟨w.dbg_state.breakpoint_counter,
      (w.dbg_state.breakpoint_counter + 1) % 2 ^ 64, ?_, ?_⟩
    · intro h
      by_cases hlt : w.dbg_state.breakpoint_counter + 1 < 2 ^ 64
      · rw [Nat.mod_eq_of_lt hlt] at h; omega
      · have : w.dbg_state.breakpoint_counter + 1 = 2 ^ 64 := by omega
        rw [this, Nat.mod_self] at h
        omega
    · simp [verb_break_handler, hx1, hx2]

/-- C5, instance: `break 0x2000` in a session that holds breakpoint 0 at `0x2000`. -/
theorem verb_break_handler_appends_witness :
    (verb_break_handler "0x2000\n".data
        (verb_break_handler "0x2000\n".data world_init)).dbg_state.breakpoints
      = [{ num := 0, addr := 0x2000 }, { num := 1, addr := 0x2000 }] :=
  ((verb_break_handler_appends "0x2000\n".data 0x2000
      (verb_break_handler "0x2000\n".data world_init) (by decide)).2.1
    (by decide)).trans (by decide)

theorem unlink_first_none (k : Nat) (l : List dbg_breakpoint_t) :
    unlink_first k l = none ↔ ∀ b ∈ l, b.num ≠ k := by
  induction l with
  | nil => simp [unlink_first]
  | cons c rest ih =>
    by_cases hc : c.num = k
    · simp [unlink_first, hc]
    · simp [unlink_first, hc, ih]

theorem unlink_first_some (k : Nat) (l l' : List dbg_breakpoint_t)
    (h : unlink_first k l = some l') :
    ∃ pre b post, l = pre ++ b :: post ∧ b.num = k ∧ (∀ x ∈ pre, x.num ≠ k) ∧
      l' = pre ++ post := by
  induction l generalizing l' with
  | nil => simp [unlink_first] at h
  | cons c rest ih =>
    by_cases hc : c.num = k
    · simp only [unlink_first, hc, if_true, Option.some.injEq] at h
      exact ⟨[], c, rest, rfl, hc, by simp, by simp [h]⟩
    · simp only [unlink_first, hc, if_false, Option.map_eq_some'] at h
      obtain ⟨r, hr, hl⟩ := h
      obtain ⟨pre, b, post, hsplit, hb, hpre, hr'⟩ := ih r hr
      refine ⟨c :: pre, b, post, by simp [hsplit], hb, ?_, by simp [← hl, hr']⟩
      intro x hx
      rcases List.mem_cons.1 hx with rfl | hx'
      · exact hc
      · exact hpre x hx'

/-- C7. With an argument that `strtoull` converts to `k` without error,
`verb_delete_handler` prints `No such breakpoint` exactly when no entry has
number `k`, and then leaves the session as it was; when an entry has number
`k`, the table loses the first such entry and nothing else, in the same order,
nothing is printed, and the counter is kept. -/
theorem verb_delete_handler_removes {κ : Type} (line : List Char) (k : Nat)
    (w : World κ) (hparse : strtoull line = (k, 0)) :
    ((verb_delete_handler line w).out
        = w.out ++ [Ev.printf "No such breakpoint (#%llu)\n" [Arg.num k]]
      ↔ ∀ b ∈ w.dbg_state.breakpoints, b.num ≠ k) ∧
    ((∀ b ∈ w.dbg_state.breakpoints, b.num ≠ k) →
      (verb_delete_handler line w).dbg_state = w.dbg_state) ∧
    ((∃ b ∈ w.dbg_state.breakpoints, b.num = k) →
      ∃ pre b post, w.dbg_state.breakpoints = pre ++ b :: post ∧ b.num = k ∧
        (∀ x ∈ pre, x.num ≠ k) ∧
        (verb_delete_handler line w).dbg_state
          = { w.dbg_state with breakpoints := pre ++ post } ∧
        (verb_delete_handler line w).out = w.out) := by
  have h1 : (strtoull line).2 = 0 := by rw [hparse]
  have h2 : (strtoull line).1 = k := by rw [hparse]
  cases hu : unlink_first k w.dbg_state.breakpoints with
  | none =>
    have hno := (unlink_first_none k _).1 hu
    refine ⟨?_, ?_, ?_⟩
    · simp [verb_delete_handler, h1, h2, hu]
      exact hno
    · intro _
      simp [verb_delete_handler, h1, h2, hu]
    · rintro ⟨b, hb, hk⟩
      exact absurd hk (hno b hb)
  | some l' =>
    obtain ⟨pre, b, post, hsplit, hb, hpre, hl'⟩ := unlink_first_some k _ l' hu
    have hmem : b ∈ w.dbg_state.breakpoints := by rw [hsplit]; simp
    refine ⟨?_, ?_, ?_⟩
    · simp only [verb_delete_handler, h1, h2, hu, ne_eq, not_true_eq_false, if_false]
      constructor
      · intro h
        have := congrArg List.length h
        simp at this
      · intro h
        exact absurd hb (h b hmem)
    · intro h
      exact absurd hb (h b hmem)
    · intro _
      refine ⟨pre, b, post, hsplit, hb, hpre, ?_, ?_⟩
      · simp [verb_delete_handler, h1, h2, hu, hl']
      · simp [verb_delete_handler, h1, h2, hu]

/-- C7, instance: `delete 7` on a table that holds breakpoint 0 only. -/
theorem verb_delete_handler_removes_witness :
    (verb_delete_handler "7\n".data
        (verb_break_handler "0x2000\n".data world_init)).dbg_state
      = (verb_break_handler "0x2000\n".data world_init).dbg_state :=
  (verb_delete_handler_removes "7\n".data 7
      (verb_break_handler "0x2000\n".data world_init) (by decide)).2.1 (by decide)

theorem pairwise_lt_snoc (l : List Nat) (c : Nat) (hp : l.Pairwise (· < ·))
    (hlt : ∀ n ∈ l, n < c) : (l ++ [c]).Pairwise (· < ·) := by
  rw [List.pairwise_append]
  refine ⟨hp, List.pairwise_singleton _ _, ?_⟩
  intro x hx y hy
  rw [List.mem_singleton] at hy
  subst hy
  exact hlt x hx

theorem ids_inv_break {κ : Type} (line : List Char) (w : World κ) (m : Nat)
    (h : ids_inv w m) (hm : m + 1 < 2 ^ 64) : ids_inv (verb_break_handler line w) (m + 1) := by
  obtain ⟨hc, ha, hal, hb, hbl⟩ := h
  by_cases he : (strtoul line).2 = 0
  · have hlt : w.dbg_state.breakpoint_counter + 1 < 2 ^ 64 := by omega
    have hmod := Nat.mod_eq_of_lt hlt
    have hout : assigned_ids (verb_break_handler line w).out
        = assigned_ids w.out ++ [w.dbg_state.breakpoint_counter] := by
      simp [verb_break_handler, he, assigned_ids, List.filterMap_append, assigned_id]
    have hbp : (verb_break_handler line w).dbg_state.breakpoints.map (·.num)
        = w.dbg_state.breakpoints.map (·.num) ++ [w.dbg_state.breakpoint_counter] := by
      simp [verb_break_handler, he]
    have hctr : (verb_break_handler line w).dbg_state.breakpoint_counter
        = w.dbg_state.breakpoint_counter + 1 := by
      simp only [verb_break_handler, he, hmod, ne_eq, not_true_eq_false, if_false]
    refine ⟨by omega, ?_, ?_, ?_, ?_⟩
    · rw [hout]; exact pairwise_lt_snoc _ _ ha hal
    · rw [hout, hctr]
      intro n hn
      rcases List.mem_append.1 hn with h1 | h1
      · have := hal n h1; omega
      · rw [List.mem_singleton] at h1; omega
    · rw [hbp]
      apply pairwise_lt_snoc _ _ hb
      intro n hn
      obtain ⟨b, hbm, rfl⟩ := List.mem_map.1 hn
      exact hbl b hbm
    · rw [hctr]
      intro b hbm
      have hbm' : b ∈ w.dbg_state.breakpoints ++
          [{ num := w.dbg_state.breakpoint_counter, addr := (strtoul line).1 % 2 ^ 32 }] := by
        simpa [verb_break_handler, he] using hbm
      rcases List.mem_append.1 hbm' with h1 | h1
      · have := hbl b h1; omega
      · rw [List.mem_singleton] at h1; subst h1; simp
  · have hout : assigned_ids (verb_break_handler line w).out = assigned_ids w.out := by
      simp [verb_break_handler, he, assigned_ids, List.filterMap_append, assigned_id]
    have hst : (verb_break_handler line w).dbg_state = w.dbg_state := by
      simp [verb_break_handler, he]
    refine ⟨by rw [hst]; omega, by rw [hout]; exact ha, by rw [hout, hst]; exact hal,
      by rw [hst]; exact hb, by rw [hst]; exact hbl⟩

theorem unlink_first_sublist (k : Nat) (l l' : List dbg_breakpoint_t)
    (h : unlink_first k l = some l') : l'.Sublist l := by
  obtain ⟨pre, b, post, hl, _, _, hl'⟩ := unlink_first_some k l l' h
  rw [hl, hl']
  exact List.Sublist.append_left (List.sublist_cons_self b post) pre

theorem ids_inv_delete {κ : Type} (line : List Char) (w : World κ) (m : Nat)
    (h : ids_inv w m) : ids_inv (verb_delete_handler line w) m := by
  obtain ⟨hc, ha, hal, hb, hbl⟩ := h
  by_cases he : (strtoull line).2 = 0
  · cases hu : unlink_first (strtoull line).1 w.dbg_state.breakpoints with
    | none =>
      have hout : assigned_ids (verb_delete_handler line w).out = assigned_ids w.out := by
        simp [verb_delete_handler, he, hu, assigned_ids, List.filterMap_append, assigned_id]
      have hst : (verb_delete_handler line w).dbg_state = w.dbg_state := by
        simp [verb_delete_handler, he, hu]
      exact ⟨by rw [hst]; omega, by rw [hout]; exact ha, by rw [hout, hst]; exact hal,
        by rw [hst]; exact hb, by rw [hst]; exact hbl⟩
    | some l' =>
      have hsub := unlink_first_sublist _ _ l' hu
      have hout : (verb_delete_handler line w).out = w.out := by
        simp [verb_delete_handler, he, hu]
      have hbp : (verb_delete_handler line w).dbg_state.breakpoints = l' := by
        simp [verb_delete_handler, he, hu]
      have hctr : (verb_delete_handler line w).dbg_state.breakpoint_counter
          = w.dbg_state.breakpoint_counter := by
        simp [verb_delete_handler, he, hu]
      refine ⟨by omega, by rw [hout]; exact ha, by rw [hout, hctr]; exact hal, ?_, ?_⟩
      · rw [hbp]
        exact List.Pairwise.sublist (List.Sublist.map _ hsub) hb
      · rw [hbp, hctr]
        exact fun b hbm => hbl b (hsub.subset hbm)
  · have hout : assigned_ids (verb_delete_handler line w).out = assigned_ids w.out := by
      simp [verb_delete_handler, he, assigned_ids, List.filterMap_append, assigned_id]
    have hst : (verb_delete_handler line w).dbg_state = w.dbg_state := by
      simp [verb_delete_handler, he]
    exact ⟨by rw [hst]; omega, by rw [hout]; exact ha, by rw [hout, hst]; exact hal,
      by rw [hst]; exact hb, by rw [hst]; exact hbl⟩

theorem ids_inv_exec_cmds {κ : Type} (cmds : List Cmd) (w : World κ) (m : Nat)
    (h : ids_inv w m) (hm : m + count_brk cmds < 2 ^ 64) :
    ids_inv (exec_cmds w cmds) (m + count_brk cmds) := by
  induction cmds generalizing w m with
  | nil => simpa [exec_cmds, count_brk] using h
  | cons c cs ih =>
    cases c with
    | brk line =>
      simp only [count_brk] at hm ⊢
      have h1 := ids_inv_break line w m h (by omega)
      have h2 := ih (verb_break_handler line w) (m + 1) h1 (by omega)
      have e : m + (count_brk cs + 1) = m + 1 + count_brk cs := by omega
      rw [e]
      exact h2
    | del line =>
      simp only [count_brk] at hm ⊢
      exact ih (verb_delete_handler line w) m (ids_inv_delete line w m h) hm

theorem count_brk_append (pre suf : List Cmd) :
    count_brk (pre ++ suf) = count_brk pre + count_brk suf := by
  induction pre with
  | nil => simp [count_brk]
  | cons c cs ih =>
    cases c with
    | brk line =>
      show count_brk (cs ++ suf) + 1 = count_brk cs + 1 + count_brk suf
      omega
    | del line => exact ih

/-- C6. Start from the initial session and run any sequence of `break` and
`delete` commands, with any argument texts, that holds fewer than `2^64`
`break` commands. After every initial part of the sequence: the identifiers
handed out so far, deleted ones included, are strictly increasing in the order
they were handed out; the numbers stored in the table are strictly increasing
in list order and pairwise different; and each is below `breakpoint_counter`. -/
theorem breakpoint_ids_increasing {κ : Type} (shoe : shoe_t κ) (pre suf : List Cmd)
    (hwrap : count_brk (pre ++ suf) < 2 ^ 64) :
    (assigned_ids (exec_cmds ⟨shoe, dbg_state_init, []⟩ pre).out).Pairwise (· < ·) ∧
    ((exec_cmds ⟨shoe, dbg_state_init, []⟩ pre).dbg_state.breakpoints.map
      (·.num)).Pairwise (· < ·) ∧
    ((exec_cmds ⟨shoe, dbg_state_init, []⟩ pre).dbg_state.breakpoints.map
      (·.num)).Nodup ∧
    (∀ b ∈ (exec_cmds ⟨shoe, dbg_state_init, []⟩ pre).dbg_state.breakpoints,
      b.num < (exec_cmds ⟨shoe, dbg_state_init, []⟩ pre).dbg_state.breakpoint_counter) := by
  have h0 : ids_inv (⟨shoe, dbg_state_init, []⟩ : World κ) 0 := by
    refine ⟨?_, ?_, ?_, ?_, ?_⟩ <;> simp [dbg_state_init, assigned_ids]
  rw [count_brk_append] at hwrap
  obtain ⟨_, ha, _, hb, hbl⟩ := ids_inv_exec_cmds pre _ 0 h0 (by omega)
  exact ⟨ha, hb, hb.imp (fun h => Nat.ne_of_lt h), hbl⟩

/-- C6, instance: two breaks, a delete of the first, and a third break. -/
theorem breakpoint_ids_increasing_witness :
    assigned_ids (exec_cmds world_init
        [Cmd.brk "0x10".data, Cmd.brk "0x20".data, Cmd.del "0".data,
          Cmd.brk "0x10".data]).out = [0, 1, 2] ∧
    ((exec_cmds world_init
        [Cmd.brk "0x10".data, Cmd.brk "0x20".data, Cmd.del "0".data,
          Cmd.brk "0x10".data]).dbg_state.breakpoints.map (·.num)).Pairwise (· < ·) :=
  ⟨by decide,
   (breakpoint_ids_increasing shoe_idle
      [Cmd.brk "0x10".data, Cmd.brk "0x20".data, Cmd.del "0".data, Cmd.brk "0x10".data]
      [] (by decide)).2.1⟩

/-- C9, failing input. `slow xyz`, in a session whose slow factor is 5: `strtoul`
finds no digit and reports `EINVAL`, `verb_break_handler` and
`verb_delete_handler` stop on that error and keep the session, but
`verb_slow_handler` does not look at `errno` and sets the slow factor to 0;
`verb_examine_handler` does not look at it either and prints the word at 0. -/
theorem verb_slow_handler_malformed :
    strtoul "xyz\n".data = (0, EINVAL) ∧
    (verb_slow_handler "xyz\n".data
        { world_init with dbg_state := { dbg_state_init with slow_factor := 5 } }).dbg_state.slow_factor
      = 0 ∧
    (verb_slow_handler "xyz\n".data
        { world_init with dbg_state := { dbg_state_init with slow_factor := 5 } }).out
      = [Ev.printf "Slow factor %u -> %u\n" [Arg.num 5, Arg.num 0]] ∧
    (verb_break_handler "xyz\n".data
        { world_init with dbg_state := { dbg_state_init with slow_factor := 5 } }).dbg_state
      = { dbg_state_init with slow_factor := 5 } ∧
    (verb_delete_handler "xyz\n".data
        { world_init with dbg_state := { dbg_state_init with slow_factor := 5 } }).dbg_state
      = { dbg_state_init with slow_factor := 5 } ∧
    (verb_examine_handler flat_emulator "xyz\n".data world_flat).out
      = [Ev.printf "(uint32_t)*0x%08x = 0x%08x\n" [Arg.num 0, Arg.num 0]] := by
  decide

/-! ## Stepping: the claims -/

theorem breakpoint_scan_shoe {κ : Type} (l : List dbg_breakpoint_t) (w : World κ) :
    (breakpoint_scan l w).shoe = w.shoe := by
  induction l with
  | nil => rfl
  | cons c rest ih =>
    unfold breakpoint_scan
    split
    · rfl
    · exact ih

theorem breakpoint_scan_hit {κ : Type} (l : List dbg_breakpoint_t) (w : World κ)
    (h : ∃ b ∈ l, w.shoe.pc = b.addr) :
    (breakpoint_scan l w).dbg_state = { w.dbg_state with running := 0 } := by
  induction l with
  | nil => obtain ⟨b, hb, _⟩ := h; cases hb
  | cons c rest ih =>
    unfold breakpoint_scan
    split
    · rfl
    · rename_i hc
      apply ih
      obtain ⟨b, hb, hpc⟩ := h
      rcases List.mem_cons.1 hb with rfl | hb'
      · exact absurd hpc hc
      · exact ⟨b, hb', hpc⟩

theorem breakpoint_scan_miss {κ : Type} (l : List dbg_breakpoint_t) (w : World κ)
    (h : ∀ b ∈ l, w.shoe.pc ≠ b.addr) : breakpoint_scan l w = w := by
  induction l with
  | nil => rfl
  | cons c rest ih =>
    unfold breakpoint_scan
    rw [if_neg (h c (List.mem_cons_self _ _))]
    exact ih (fun b hb => h b (List.mem_cons_of_mem _ hb))

theorem cpu_steps_append (l1 l2 : List Ev) : cpu_steps (l1 ++ l2) = cpu_steps l1 + cpu_steps l2 := by
  unfold cpu_steps
  exact List.count_append _ _ _

theorem cpu_steps_print_pc_events (pc : Nat) (name : Option (List Char)) (binary : List Nat)
    (str : List Char) (len : Nat) : cpu_steps (print_pc_events pc name binary str len) = 0 := by
  unfold cpu_steps
  rw [List.count_eq_zero]
  intro h
  simp [print_pc_events] at h

theorem breakpoint_scan_steps {κ : Type} (l : List dbg_breakpoint_t) (w : World κ) :
    cpu_steps (breakpoint_scan l w).out = cpu_steps w.out := by
  induction l with
  | nil => rfl
  | cons c rest ih =>
    unfold breakpoint_scan
    split
    · simp [cpu_steps_append, cpu_steps]
    · exact ih

theorem read_binary_pc {κ : Type} (E : Emulator κ)
    (hlget : ∀ s a k, (E.lget s a k).2.pc = s.pc) (n i : Nat) (shoe : shoe_t κ)
    (binary : List Nat) : (read_binary E n i shoe binary).2.pc = shoe.pc := by
  induction n generalizing i shoe binary with
  | zero => rfl
  | succ n ih =>
    unfold read_binary
    rw [ih, hlget]

theorem print_pc_dbg_state {κ : Type} (E : Emulator κ) (w : World κ) :
    (print_pc E w).dbg_state = w.dbg_state := rfl

theorem print_pc_pc {κ : Type} (E : Emulator κ)
    (hlget : ∀ s a k, (E.lget s a k).2.pc = s.pc) (w : World κ) :
    (print_pc E w).shoe.pc = w.shoe.pc := by
  show (read_binary E 32 0 { w.shoe with suppress_exceptions := 1 } []).2.pc = w.shoe.pc
  rw [read_binary_pc E hlget]

theorem print_pc_steps {κ : Type} (E : Emulator κ) (w : World κ) :
    cpu_steps (print_pc E w).out = cpu_steps w.out := by
  unfold print_pc
  simp only [cpu_steps_append, cpu_steps_print_pc_events, Nat.add_zero]

theorem stepper_exec_dbg_state {κ : Type} (E : Emulator κ) (w : World κ) :
    (stepper_exec E w).dbg_state = w.dbg_state := by
  unfold stepper_exec stepper_notifications cpu_step
  simp only
  split <;> split <;> (try split) <;> rfl

theorem stepper_exec_steps {κ : Type} (E : Emulator κ) (w : World κ) :
    cpu_steps (stepper_exec E w).out = cpu_steps w.out + 1 := by
  have h1 : cpu_steps (stepper_notifications E w).out = cpu_steps w.out := by
    unfold stepper_notifications
    split
    · split
      · simp [cpu_steps_append, cpu_steps]
      · rfl
    · rfl
  have h2 : cpu_steps (cpu_step E (stepper_notifications E w)).out = cpu_steps w.out + 1 := by
    unfold cpu_step
    simp only [cpu_steps_append, h1]
    rfl
  unfold stepper_exec
  simp only
  split
  · unfold printregs
    simp only [cpu_steps_append, print_pc_steps, h2]
    rfl
  · exact h2

theorem stepper_hit {κ : Type} (E : Emulator κ) (w : World κ)
    (h : ∃ b ∈ w.dbg_state.breakpoints, (stepper E w).shoe.pc = b.addr) :
    (stepper E w).dbg_state = { w.dbg_state with running := 0 } := by
  unfold stepper at h ⊢
  rw [breakpoint_scan_shoe] at h
  rw [stepper_exec_dbg_state, breakpoint_scan_hit _ _ h, stepper_exec_dbg_state]

theorem stepper_miss {κ : Type} (E : Emulator κ) (w : World κ)
    (h : ∀ b ∈ w.dbg_state.breakpoints, (stepper E w).shoe.pc ≠ b.addr) :
    (stepper E w).dbg_state = w.dbg_state := by
  unfold stepper at h ⊢
  rw [breakpoint_scan_shoe] at h
  rw [stepper_exec_dbg_state, breakpoint_scan_miss _ _ h, stepper_exec_dbg_state]

theorem stepper_steps {κ : Type} (E : Emulator κ) (w : World κ) :
    cpu_steps (stepper E w).out = cpu_steps w.out + 1 := by
  unfold stepper
  rw [breakpoint_scan_steps, stepper_exec_steps]

theorem continue_body_hit {κ : Type} (E : Emulator κ) (w : World κ)
    (h : ∃ b ∈ w.dbg_state.breakpoints, (continue_body E w).shoe.pc = b.addr) :
    (continue_body E w).dbg_state = { w.dbg_state with running := 0 } := by
  unfold continue_body at h ⊢
  split at h
  · rw [if_pos (by assumption)]
    exact stepper_hit E _ h
  · rw [if_neg (by assumption)]
    exact stepper_hit E _ h

theorem continue_body_miss {κ : Type} (E : Emulator κ) (w : World κ)
    (h : ∀ b ∈ w.dbg_state.breakpoints, (continue_body E w).shoe.pc ≠ b.addr) :
    (continue_body E w).dbg_state = w.dbg_state := by
  unfold continue_body at h ⊢
  split at h
  · rw [if_pos (by assumption)]
    exact stepper_miss E _ h
  · rw [if_neg (by assumption)]
    exact stepper_miss E _ h

theorem continue_body_steps {κ : Type} (E : Emulator κ) (w : World κ) :
    cpu_steps (continue_body E w).out = cpu_steps w.out + 1 := by
  unfold continue_body
  split
  · rw [stepper_steps]
    simp [cpu_steps_append, cpu_steps]
  · rw [stepper_steps]

/-- The loop of `verb_continue_handler` runs to the first round after which the
program counter is at a breakpoint, and no further. -/
theorem continue_loop_first_hit {κ : Type} (E : Emulator κ) (n : Nat) :
    ∀ (w : World κ) (fuel : Nat), w.dbg_state.running ≠ 0 →
      (∃ b ∈ w.dbg_state.breakpoints, ((continue_body E)^[n + 1] w).shoe.pc = b.addr) →
      (∀ k, k < n → ∀ b ∈ w.dbg_state.breakpoints,
        ((continue_body E)^[k + 1] w).shoe.pc ≠ b.addr) →
      n + 1 < fuel →
      continue_loop E fuel w = some ((continue_body E)^[n + 1] w) ∧
      ((continue_body E)^[n + 1] w).dbg_state.running = 0 ∧
      cpu_steps ((continue_body E)^[n + 1] w).out = cpu_steps w.out + (n + 1) := by
  induction n with
  | zero =>
    intro w fuel hrun hhit _ hfuel
    obtain ⟨f, rfl⟩ : ∃ f, fuel = f + 2 := ⟨fuel - 2, by omega⟩
    simp only [Nat.zero_add, Function.iterate_one] at hhit ⊢
    have hd := continue_body_hit E w hhit
    refine ⟨?_, by rw [hd], continue_body_steps E w⟩
    rw [continue_loop, if_pos hrun, continue_loop]
    rw [if_neg (by rw [hd]; simp)]
  | succ n ih =>
    intro w fuel hrun hhit hfirst hfuel
    obtain ⟨f, rfl⟩ : ∃ f, fuel = f + 1 := ⟨fuel - 1, by omega⟩
    have hmiss : ∀ b ∈ w.dbg_state.breakpoints, (continue_body E w).shoe.pc ≠ b.addr := by
      intro b hb
      have := hfirst 0 (by omega) b hb
      simpa using this
    have hd := continue_body_miss E w hmiss
    have hiter : ∀ k, (continue_body E)^[k + 1] w = (continue_body E)^[k] (continue_body E w) :=
      fun k => Function.iterate_succ_apply _ _ _
    obtain ⟨h1, h2, h3⟩ := ih (continue_body E w) f (by rw [hd]; exact hrun)
      (by rw [hd, ← hiter]; exact hhit)
      (by
        intro k hk b hb
        rw [hd] at hb
        rw [← hiter]
        exact hfirst (k + 1) (by omega) b hb)
      (by omega)
    rw [← hiter] at h1 h2 h3
    refine ⟨?_, h2, ?_⟩
    · rw [continue_loop, if_pos hrun]
      exact h1
    · rw [h3, continue_body_steps]
      omega

/-- C4. Take a continue request with no cancellation, in any session, over any
emulator whose memory reads leave the program counter alone. If the program
counter is at a registered breakpoint after `n ≥ 1` instructions and after no
smaller positive number of them, then `verb_continue_handler` returns (given
fuel for `n + 1` tests of the loop condition), has executed exactly `n`
instructions, and returns with `running = 0` and the program counter at that
breakpoint. -/
theorem verb_continue_handler_first_hit {κ : Type} (E : Emulator κ) (line : List Char)
    (w : World κ) (n fuel : Nat)
    (hlget : ∀ s a k, (E.lget s a k).2.pc = s.pc)
    (hn : 1 ≤ n)
    (hhit : ∃ b ∈ w.dbg_state.breakpoints, pc_after E w n = b.addr)
    (hfirst : ∀ k, 1 ≤ k → k < n → ∀ b ∈ w.dbg_state.breakpoints, pc_after E w k ≠ b.addr)
    (hfuel : n < fuel) :
    ∃ w', verb_continue_handler E fuel line w = some w' ∧
      w'.dbg_state.running = 0 ∧
      w'.shoe.pc = pc_after E w n ∧
      (∃ b ∈ w'.dbg_state.breakpoints, w'.shoe.pc = b.addr) ∧
      cpu_steps w'.out = cpu_steps w.out + n := by
  obtain ⟨m, rfl⟩ : ∃ m, n = m + 1 := ⟨n - 1, by omega⟩
  unfold pc_after at hhit hfirst ⊢
  obtain ⟨h1, h2, h3⟩ := continue_loop_first_hit E m (set_running 1 w) fuel
    (by simp [set_running]) hhit
    (fun k hk b hb => hfirst (k + 1) (by omega) (by omega) b hb) hfuel
  have hbps : ∀ j, ((continue_body E)^[j] (set_running 1 w)).dbg_state.breakpoints
      = w.dbg_state.breakpoints := by
    intro j
    induction j with
    | zero => rfl
    | succ j ihj =>
      rw [Function.iterate_succ_apply']
      by_cases hh : ∃ b ∈ ((continue_body E)^[j] (set_running 1 w)).dbg_state.breakpoints,
          (continue_body E ((continue_body E)^[j] (set_running 1 w))).shoe.pc = b.addr
      · rw [continue_body_hit E _ hh]; exact ihj
      · rw [continue_body_miss E _ (by
          intro b hb hpc
          exact hh ⟨b, hb, hpc⟩)]
        exact ihj
  refine ⟨print_pc E ((continue_body E)^[m + 1] (set_running 1 w)), ?_, ?_, ?_, ?_, ?_⟩
  · unfold verb_continue_handler
    rw [h1]
    rfl
  · rw [print_pc_dbg_state]; exact h2
  · exact print_pc_pc E hlget _
  · rw [print_pc_dbg_state, hbps, print_pc_pc E hlget]
    exact hhit
  · rw [print_pc_steps, h3]
    rfl

/-- C4, instance: from `0x100` with a breakpoint at `0x104` and two-byte
instructions, the loop executes two instructions and stops at `0x104`. -/
theorem verb_continue_handler_first_hit_witness :
    pc_after flat_emulator world_flat 2 = 0x104 ∧
    ∃ w', verb_continue_handler flat_emulator 3 [] world_flat = some w' ∧
      w'.dbg_state.running = 0 ∧
      w'.shoe.pc = 0x104 ∧
      cpu_steps w'.out = 2 := by
  have hpc : pc_after flat_emulator world_flat 2 = 0x104 := by decide
  obtain ⟨w', h1, h2, h3, _, h5⟩ :=
    verb_continue_handler_first_hit flat_emulator [] world_flat 2 3
      (fun _ _ _ => rfl) (by decide) ⟨⟨0, 0x104⟩, by decide, by decide⟩
      (by
        intro k hk1 hk2 b hb
        have hk : k = 1 := by omega
        subst hk
        have hb' : b = ⟨0, 0x104⟩ := by simpa [world_flat, dbg_state_init] using hb
        subst hb'
        decide)
      (by decide)
  exact ⟨hpc, w', h1, h2, by rw [h3, hpc], by rw [h5]; rfl⟩

/-! ## Backtrace: the claims -/

/-- A frame whose saved frame pointer is its own frame pointer has delta 0,
which passes the test `delta <= 1000` and fails the test `delta > 1000` that
ends the walk: the walk visits the same frame again, whatever the fuel. -/
theorem bt_frames_self_frame (fp : Nat) (hfp : fp + 8 < 2 ^ 32) (fuel : Nat) :
    ∀ (i : Nat) (w : World (Nat → Nat)), w.shoe.sr_s = false → w.shoe.core fp = fp →
      bt_frames flat_emulator fuel i fp w = Outcome.out_of_fuel := by
  induction fuel with
  | zero => intro i w _ _; rfl
  | succ fuel ih =>
    intro i w hs hself
    have hfp' : fp < 2 ^ 32 := by omega
    have hd : (fp + 2 ^ 32 - fp) % 2 ^ 32 = 0 := by
      have : fp + 2 ^ 32 - fp = 2 ^ 32 := by omega
      rw [this, Nat.mod_self]
    have h8 : (fp + 8) % 2 ^ 32 = fp + 8 := Nat.mod_eq_of_lt hfp
    have hm : fp % 2 ^ 32 = fp := Nat.mod_eq_of_lt hfp'
    unfold bt_frames
    simp only [flat_emulator, hself, hm, hd, h8, Nat.zero_le, if_true]
    cases fuel with
    | zero => rfl
    | succ f =>
      have hj : ¬ (fp + 8 < fp) := by omega
      simp only [bt_locals, hj, if_false, Outcome.bind, frame_line, hs]
      have hz : ¬ (0 > 1000) := by omega
      simp only [hz, if_false]
      exact ih _ _ hs hself

theorem bt_handler_self_loop (fp : Nat) (hfp : fp + 8 < 2 ^ 32) (fuel : Nat)
    (line : List Char) (w : World (Nat → Nat)) (hs : w.shoe.sr_s = false)
    (ha : w.shoe.a 6 = fp) (hself : w.shoe.core fp = fp) :
    verb_backtrace_handler flat_emulator fuel line w = Outcome.out_of_fuel := by
  have hm : fp % 2 ^ 32 = fp := Nat.mod_eq_of_lt (by omega)
  have hfl : frame_line flat_emulator { w.shoe with suppress_exceptions := 1, abort := 0 } 0
      w.shoe.pc = some (Ev.printf "%u:  *0x%08x\n" [Arg.num 0, Arg.num w.shoe.pc]) := by
    simp [frame_line, hs]
  have key := bt_frames_self_frame fp hfp fuel 1
    { shoe := { w.shoe with suppress_exceptions := 1, abort := 0 }
      dbg_state := w.dbg_state
      out := w.out ++ [Ev.printf "%u:  *0x%08x\n" [Arg.num 0, Arg.num w.shoe.pc]] } hs hself
  unfold verb_backtrace_handler
  simp only [hfl, ha, hm, key]
  rfl

/-- C8, failing input. In user mode, with frame pointer `0x2000` and the word
at `0x2000` equal to `0x2000` (a frame that points at itself), the walk of
`verb_backtrace_handler` does not return for any fuel; a cycle of two frames
does end, on the frame whose saved frame pointer is the lower one. -/
theorem verb_backtrace_handler_self_frame :
    (∀ fuel, (verb_backtrace_handler flat_emulator fuel [] world_flat).log = none) ∧
    (verb_backtrace_handler flat_emulator 4 [] world_cycle).log
      = some [Ev.printf "%u:  *0x%08x\n" [Arg.num 0, Arg.num 0x100],
              Ev.printf "    \x7b" [],
              Ev.printf "%x, " [Arg.num 0], Ev.printf "%x, " [Arg.num 0],
              Ev.printf "\x7d\n" [],
              Ev.printf "%u:  *0x%08x\n" [Arg.num 1, Arg.num 0],
              Ev.printf "%u:  *0x%08x\n" [Arg.num 2, Arg.num 0]] := by
  constructor
  · intro fuel
    rw [bt_handler_self_loop 0x2000 (by decide) fuel [] world_flat rfl rfl rfl]
    rfl
  · decide

/-! ## Single step: the claims -/

/-- C10, counterexample. With an interrupt pending, trace on and a breakpoint at
the next instruction, one `stepper` call dispatches the interrupt, prints the
trace and reports the breakpoint; `verb_stepi_handler` does none of these, and
the two end in different states with different output. -/
theorem verb_stepi_handler_not_stepper :
    verb_stepi_handler flat_emulator [] world_traced
      ≠ stepi_by_stepper flat_emulator [] world_traced ∧
    (verb_stepi_handler flat_emulator [] world_traced).out
      = [Ev.cpu_step,
         Ev.printf "*0x%08x %s [ " [Arg.num 0x102, Arg.str []],
         Ev.printf "%02x%02x " [Arg.num 0, Arg.num 0],
         Ev.printf "]  %s\n" [Arg.str "nop".data]] ∧
    (stepi_by_stepper flat_emulator [] world_traced).out
      = [Ev.process_pending_interrupt,
         Ev.cpu_step,
         Ev.printf "*0x%08x %s [ " [Arg.num 0x102, Arg.str []],
         Ev.printf "%02x%02x " [Arg.num 0, Arg.num 0],
         Ev.printf "]  %s\n" [Arg.str "nop".data],
         Ev.printregs 0x102,
         Ev.printf "Hit breakpoint %llu *0x%08x\n" [Arg.num 1, Arg.num 0x102],
         Ev.printf "*0x%08x %s [ " [Arg.num 0x102, Arg.str []],
         Ev.printf "%02x%02x " [Arg.num 0, Arg.num 0],
         Ev.printf "]  %s\n" [Arg.str "nop".data]] ∧
    (verb_stepi_handler flat_emulator [] world_traced).shoe.cpu_thread_notifications = 1 ∧
    (stepi_by_stepper flat_emulator [] world_traced).shoe.cpu_thread_notifications = 0 := by
  refine ⟨?_, by decide, by decide, by decide, by decide⟩
  intro h
  have h' := congrArg (fun w => w.shoe.cpu_thread_notifications) h
  revert h'
  decide

/-- C10, amended. `verb_stepi_handler` sets `running = 1`, calls `cpu_step()`
once (not `stepper()`), sets `running = 0` and prints the current instruction;
it executes exactly one instruction and always ends with `running = 0`. It has
the effect and output of the sequence with one `stepper()` call whenever no
interrupt is pending, trace is off, and no breakpoint is at the program counter
that the step arrives at. -/
theorem verb_stepi_handler_one_cpu_step {κ : Type} (E : Emulator κ) (line : List Char)
    (w : World κ) :
    verb_stepi_handler E line w
      = print_pc E (set_running 0 (cpu_step E (set_running 1 w))) ∧
    (verb_stepi_handler E line w).dbg_state.running = 0 ∧
    cpu_steps (verb_stepi_handler E line w).out = cpu_steps w.out + 1 ∧
    (w.shoe.cpu_thread_notifications &&& 0xff = 0 → w.dbg_state.trace = false →
      (∀ b ∈ w.dbg_state.breakpoints, (E.cpu_step w.shoe).pc ≠ b.addr) →
      verb_stepi_handler E line w = stepi_by_stepper E line w) := by
  refine ⟨rfl, rfl, ?_, ?_⟩
  · unfold verb_stepi_handler
    rw [print_pc_steps]
    simp [set_running, cpu_step, cpu_steps_append, cpu_steps]
  · intro hn ht hb
    have h1 : stepper_notifications E (set_running 1 w) = set_running 1 w := by
      unfold stepper_notifications
      have : (set_running 1 w).shoe.cpu_thread_notifications &&& 0xff = 0 := hn
      simp [this]
    have h2 : stepper_exec E (set_running 1 w) = cpu_step E (set_running 1 w) := by
      unfold stepper_exec
      simp only [h1]
      have : (cpu_step E (set_running 1 w)).dbg_state.trace = false := ht
      simp [this]
    have h3 : stepper E (set_running 1 w) = cpu_step E (set_running 1 w) := by
      unfold stepper
      rw [h2]
      exact breakpoint_scan_miss _ _ hb
    unfold verb_stepi_handler stepi_by_stepper
    rw [h3]

/-- C10, instance: in `world_flat` no interrupt is pending, trace is off and the
step arrives at `0x102`, where no breakpoint is. -/
theorem verb_stepi_handler_one_cpu_step_witness :
    (verb_stepi_handler flat_emulator [] world_flat).dbg_state.running = 0 ∧
    verb_stepi_handler flat_emulator [] world_flat
      = stepi_by_stepper flat_emulator [] world_flat :=
  ⟨(verb_stepi_handler_one_cpu_step flat_emulator [] world_flat).2.1,
   (verb_stepi_handler_one_cpu_step flat_emulator [] world_flat).2.2.2
     (by decide) (by decide) (by decide)⟩

/-! ## Symbol lookup: the claims -/

theorem rom_symbol_scan_above (q : Nat) (table : List rom_symbol) (name : Option (List Char))
    (h : ∀ e ∈ table.head?, q < e.addr) : rom_symbol_scan q table name = name := by
  cases table with
  | nil => rfl
  | cons s rest =>
    have hs : q < s.addr := h s (by simp)
    simp [rom_symbol_scan, hs]

theorem sorted_tail_above (q : Nat) (t : rom_symbol) (rest : List rom_symbol)
    (hsorted : (t :: rest).Pairwise (fun x y => x.addr ≤ y.addr)) (ht : q < t.addr) :
    ∀ x ∈ t :: rest, q < x.addr := by
  intro x hx
  rcases List.mem_cons.1 hx with rfl | hx'
  · exact ht
  · have := (List.pairwise_cons.1 hsorted).1 x hx'
    omega

theorem rom_symbol_scan_split (q : Nat) (table : List rom_symbol)
    (hsorted : table.Pairwise (fun x y => x.addr ≤ y.addr)) :
    ∀ (name : Option (List Char)), (∃ e ∈ table.head?, e.addr ≤ q) →
      ∃ pre e post, table = pre ++ e :: post ∧ e.addr ≤ q ∧
        (∀ x ∈ pre, x.addr ≤ e.addr) ∧ (∀ x ∈ post, q < x.addr) ∧
        rom_symbol_scan q table name = some e.name := by
  induction table with
  | nil => intro name h; obtain ⟨e, he, _⟩ := h; simp at he
  | cons s rest ih =>
    intro name h
    have hs : s.addr ≤ q := by
      obtain ⟨e, he, hle⟩ := h
      simp at he
      subst he
      exact hle
    have hns : ¬ s.addr > q := by omega
    have hrest := (List.pairwise_cons.1 hsorted).2
    have hsle := (List.pairwise_cons.1 hsorted).1
    cases rest with
    | nil =>
      exact ⟨[], s, [], rfl, hs, by simp, by simp, by simp [rom_symbol_scan, hns]⟩
    | cons t rest' =>
      by_cases ht : t.addr ≤ q
      · obtain ⟨pre, e, post, hsplit, hle, hpre, hpost, hscan⟩ :=
          ih hrest (some s.name) ⟨t, by simp, ht⟩
        have hemem : e ∈ t :: rest' := by rw [hsplit]; simp
        refine ⟨s :: pre, e, post, by rw [hsplit]; rfl, hle, ?_, hpost, ?_⟩
        · intro x hx
          rcases List.mem_cons.1 hx with rfl | hx'
          · exact hsle e hemem
          · exact hpre x hx'
        · rw [rom_symbol_scan, if_neg hns]
          exact hscan
      · have habove := sorted_tail_above q t rest' hrest (by omega)
        refine ⟨[], s, t :: rest', rfl, hs, by simp, habove, ?_⟩
        rw [rom_symbol_scan, if_neg hns]
        exact rom_symbol_scan_above q _ _ (by
          intro e he
          simp at he
          subst he
          omega)

theorem rom_symbol_scan_all_below (q : Nat) (table : List rom_symbol)
    (h : ∀ x ∈ table, x.addr ≤ q) :
    ∀ (name : Option (List Char)) (e : rom_symbol), table.getLast? = some e →
      rom_symbol_scan q table name = some e.name := by
  induction table with
  | nil => intro name e he; simp at he
  | cons s rest ih =>
    intro name e he
    have hns : ¬ s.addr > q := by
      have := h s (List.mem_cons_self _ _)
      omega
    rw [rom_symbol_scan, if_neg hns]
    cases rest with
    | nil =>
      simp at he
      subst he
      rfl
    | cons t rest' =>
      apply ih (fun x hx => h x (List.mem_cons_of_mem _ hx))
      rw [List.getLast?_cons_cons] at he
      exact he

/-- C11. Over a table sorted by ascending address, the scan of `print_pc` for
the address `q`, started with no name: gives no name when the table is empty
or `q` is below the first entry's address; otherwise gives the name of an
entry at or below `q` that no entry at or below `q` exceeds in address, all
entries after it being above `q`; and gives the last entry's name whenever `q`
is at or beyond the last entry's address. -/
theorem rom_symbol_scan_nearest (table : List rom_symbol) (q : Nat)
    (hsorted : table.Pairwise (fun x y => x.addr ≤ y.addr)) :
    (table = [] → rom_symbol_scan q table none = none) ∧
    ((∃ e ∈ table.head?, q < e.addr) → rom_symbol_scan q table none = none) ∧
    ((∃ e ∈ table.head?, e.addr ≤ q) →
      ∃ pre e post, table = pre ++ e :: post ∧ e.addr ≤ q ∧
        (∀ x ∈ pre, x.addr ≤ e.addr) ∧ (∀ x ∈ post, q < x.addr) ∧
        rom_symbol_scan q table none = some e.name) ∧
    (∀ e, table.getLast? = some e → e.addr ≤ q →
      rom_symbol_scan q table none = some e.name) := by
  refine ⟨?_, ?_, rom_symbol_scan_split q table hsorted none, ?_⟩
  · intro h
    rw [h]
    rfl
  · rintro ⟨e, he, hq⟩
    apply rom_symbol_scan_above
    intro e' he'
    rw [Option.mem_def] at he he'
    rw [he] at he'
    injection he' with he'
    subst he'
    exact hq
  · intro e he hq
    apply rom_symbol_scan_all_below q table _ none e he
    intro x hx
    obtain ⟨l, rfl⟩ : ∃ l, table = l ++ [e] :=
      ⟨table.dropLast, (List.dropLast_append_getLast? e he).symm⟩
    rcases List.mem_append.1 hx with hx' | hx'
    · have := (List.pairwise_append.1 hsorted).2.2 x hx' e (by simp)
      omega
    · rw [List.mem_singleton] at hx'
      subst hx'
      exact hq

/-- C11, instance: in the table `Start` at `0x10`, `Reset` at `0x20`, `Boot` at
`0x30`, the address `0x25` resolves to `Reset`, `0x40` to `Boot`, `0x5` to
nothing. -/
theorem rom_symbol_scan_nearest_witness :
    rom_symbol_scan 0x25 sym_emulator.macii_rom_symbols none = some "Reset".data ∧
    rom_symbol_scan 0x40 sym_emulator.macii_rom_symbols none = some "Boot".data ∧
    rom_symbol_scan 0x5 sym_emulator.macii_rom_symbols none = none :=
  ⟨by decide,
   (rom_symbol_scan_nearest sym_emulator.macii_rom_symbols 0x40 (by decide)).2.2.2
      { addr := 0x30, name := "Boot".data } (by decide) (by decide),
   (rom_symbol_scan_nearest sym_emulator.macii_rom_symbols 0x5 (by decide)).2.1
      ⟨{ addr := 0x10, name := "Start".data }, by decide, by decide⟩⟩

/-- C12, counterexample. In user mode, at the program counter `0x10000025`, which
is outside `[0x40000000, 0x50000000)`, `print_pc` scans the static table and
prints the name `Reset`, not an empty name. -/
theorem print_pc_name_user_low_rom :
    print_pc_name sym_emulator (mode_shoe false 0x10000025 0 (fun _ => 0))
      = some "Reset".data ∧
    (print_pc sym_emulator
        { shoe := mode_shoe false 0x10000025 0 (fun _ => 0), dbg_state := dbg_state_init,
          out := [] }).out
      = [Ev.printf "*0x%08x %s [ " [Arg.num 0x10000025, Arg.str "Reset".data],
         Ev.printf "%02x%02x " [Arg.num 0, Arg.num 0],
         Ev.printf "]  %s\n" [Arg.str "nop".data]] := by
  decide

/-- C12, amended. In `print_pc`: a program counter in `[0x40000000, 0x50000000)`
is resolved in the static table, whatever the privilege; outside that range,
in supervisor mode, it is resolved in the function table of the loaded
program; in user mode the function table is not consulted, a program counter
in `[0x10000000, 0x20000000)` is resolved in the static table as well, and any
other gets the empty name. The name chosen is the one printed. -/
theorem print_pc_name_selection {κ : Type} (E : Emulator κ) (shoe : shoe_t κ) :
    ((0x40000000 ≤ shoe.pc ∧ shoe.pc < 0x50000000) →
      print_pc_name E shoe
        = rom_symbol_scan (shoe.pc % shoe.physical_rom_size) E.macii_rom_symbols none) ∧
    (¬ (0x40000000 ≤ shoe.pc ∧ shoe.pc < 0x50000000) → shoe.sr_s = true →
      print_pc_name E shoe
        = (E.coff_find_func shoe shoe.pc).bind
            (fun symb => if strlen symb.name ≠ 0 then some symb.name else none)) ∧
    (¬ (0x40000000 ≤ shoe.pc ∧ shoe.pc < 0x50000000) → shoe.sr_s = false →
      (0x10000000 ≤ shoe.pc ∧ shoe.pc < 0x20000000) →
      print_pc_name E shoe
        = rom_symbol_scan (shoe.pc % shoe.physical_rom_size) E.macii_rom_symbols none) ∧
    (¬ (0x40000000 ≤ shoe.pc ∧ shoe.pc < 0x50000000) → shoe.sr_s = false →
      ¬ (0x10000000 ≤ shoe.pc ∧ shoe.pc < 0x20000000) →
      print_pc_name E shoe = some []) ∧
    (((0x40000000 ≤ shoe.pc ∧ shoe.pc < 0x50000000) ∨ shoe.sr_s = false) →
      ∀ f, print_pc_name { E with coff_find_func := f } shoe = print_pc_name E shoe) ∧
    (∀ (w : World κ), w.shoe = shoe → ∃ pc rest, (print_pc E w).out
      = w.out ++
        Ev.printf "*0x%08x %s [ " [Arg.num pc, Arg.str ((print_pc_name E shoe).getD [])]
          :: rest) := by
  refine ⟨?_, ?_, ?_, ?_, ?_, ?_⟩
  · intro h
    unfold print_pc_name
    rw [if_pos h]
  · intro h hs
    unfold print_pc_name
    rw [if_neg h, if_pos hs]
    cases E.coff_find_func shoe shoe.pc <;> rfl
  · intro h hs hl
    unfold print_pc_name
    rw [if_neg h, if_neg (by simp [hs]), if_pos hl]
  · intro h hs hl
    unfold print_pc_name
    rw [if_neg h, if_neg (by simp [hs]), if_neg hl]
  · intro h f
    rcases h with h | hs
    · simp only [print_pc_name, h, and_self, if_true]
    · by_cases hr : 0x40000000 ≤ shoe.pc ∧ shoe.pc < 0x50000000
      · simp only [print_pc_name, hr, and_self, if_true]
      · simp only [print_pc_name, hr, hs, if_false, Bool.false_eq_true]
  · intro w hw
    subst hw
    exact ⟨_, _, rfl⟩

/-- C12, instance: in user mode the program counter `0x25` gets the empty name,
and `0x40000025` resolves to `Reset` in the static table. -/
theorem print_pc_name_selection_witness :
    print_pc_name sym_emulator (mode_shoe false 0x25 0 (fun _ => 0)) = some [] ∧
    print_pc_name sym_emulator (mode_shoe false 0x40000025 0 (fun _ => 0))
      = some "Reset".data :=
  ⟨(print_pc_name_selection sym_emulator (mode_shoe false 0x25 0 (fun _ => 0))).2.2.2.1
      (by decide) (by decide) (by decide),
   ((print_pc_name_selection sym_emulator
      (mode_shoe false 0x40000025 0 (fun _ => 0))).1 (by decide)).trans (by decide)⟩

/-! ## Backtrace frames: the claims -/

theorem frame_line_none_iff {κ : Type} (E : Emulator κ) (shoe : shoe_t κ) (i addr : Nat) :
    frame_line E shoe i addr = none ↔ shoe.sr_s = true ∧ E.coff_find_func shoe addr = none := by
  unfold frame_line
  by_cases hs : shoe.sr_s = true
  · rw [if_pos hs]
    cases E.coff_find_func shoe addr <;> simp [hs]
  · rw [if_neg hs]
    simp [hs]

/-- C14, failing input. In supervisor mode, when `coff_find_func` finds no
function, the `printf` argument `symb->value` is read through the null pointer
and no frame line is produced: for frame 0 when the live program counter is in
no function, and for frame 1 when the program counter is in `main` but the
saved return address `0x5000` is in no function. -/
theorem frame_line_absent_symbol :
    frame_line flat_emulator world_super.shoe 0 0x100 = none ∧
    (verb_backtrace_handler flat_emulator 5 [] world_super).is_null_deref = true ∧
    frame_line sym_emulator world_super.shoe 0 0x100
      = some (Ev.printf "%u:  *0x%08x  %s+%u\n"
          [Arg.num 0, Arg.num 0x100, Arg.str "main".data, Arg.num 0]) ∧
    frame_line sym_emulator world_super.shoe 1 0x5000 = none ∧
    (verb_backtrace_handler sym_emulator 5 [] world_super).is_null_deref = true := by
  decide

/-- Over memory that reads leave alone, the words read are the memory contents
at `j`, `j + 4`, ... -/
theorem read_words_pure {κ : Type} (E : Emulator κ)
    (hread : ∀ s a n, (E.lget s a n).2 = s) (n : Nat) :
    ∀ (j : Nat) (shoe : shoe_t κ),
      read_words E n j shoe = ((List.range n).map (fun k => mem32 E shoe (j + 4 * k)), shoe) := by
  induction n with
  | zero => intro j shoe; rfl
  | succ n ih =>
    intro j shoe
    simp only [read_words, hread, ih, List.range_succ_eq_map, List.map_cons, List.map_map,
      Nat.mul_zero, Nat.add_zero, mem32]
    congr 2
    apply List.map_congr_left
    intro k _
    simp only [Function.comp, Nat.succ_eq_add_one]
    have : j + 4 + 4 * k = j + 4 * (k + 1) := by omega
    rw [this]

end Shoebill
